import Mathlib

/-!
# Verification of the log-it exercise pipeline

A shallow embedding, in Lean 4, of the exercise-name normalization,
suggestion ranking, aggregation and workout-persistence logic of the
`log-it` workout tracker, together with theorems settling the frozen
claims about its specification.

JavaScript strings are modelled as `List Char`; every relevant input in
the claims is ASCII, and the case-mapping helpers below implement the
ASCII fragment of `String.prototype.toLowerCase`/`toUpperCase`.
Decimal weights (JS numbers holding multiples of 0.1 well inside the
exactly-representable range) are modelled as `ℚ`.
-/

set_option allowUnsafeReducibility true
attribute [semireducible] Rat.add Rat.sub Rat.mul Rat.div Rat.inv Rat.ofScientific

namespace LogIt

/-! ## Character-level helpers -/

/-- Code-unit view of a JS string. -/
abbrev Str := List Char

/-- The ASCII fragment of the JS whitespace class `\s` (matched by
`trim` and by the `/\s+/g` replacement): space, tab, LF, VT, FF, CR. -/
def isJsSpace (c : Char) : Bool :=
  c = ' ' || c = '\t' || c = '\n' || c = '\x0b' || c = '\x0c' || c = '\r'

/-- ASCII fragment of `String.prototype.toLowerCase`. -/
def jsToLower (c : Char) : Char :=
  if 'A' ≤ c ∧ c ≤ 'Z' then Char.ofNat (c.toNat + 32) else c

/-- ASCII fragment of `String.prototype.toUpperCase`. -/
def jsToUpper (c : Char) : Char :=
  if 'a' ≤ c ∧ c ≤ 'z' then Char.ofNat (c.toNat - 32) else c

theorem char_le_iff_toNat {a b : Char} : a ≤ b ↔ a.toNat ≤ b.toNat := Iff.rfl

theorem char_toNat_injective {a b : Char} (h : a.toNat = b.toNat) : a = b := by
  have h2 := congrArg Char.ofNat h
  rwa [Char.ofNat_toNat, Char.ofNat_toNat] at h2

theorem char_eq_iff_toNat {a b : Char} : a = b ↔ a.toNat = b.toNat :=
  ⟨fun h => congrArg _ h, char_toNat_injective⟩

theorem char_toNat_ofNat_of_lt {n : Nat} (h : n < 55296) :
    (Char.ofNat n).toNat = n := by
  rw [Char.ofNat, dif_pos (Or.inl h)]
  rfl

theorem jsToLower_toNat_of_upper {c : Char} (h : 65 ≤ c.toNat) (h2 : c.toNat ≤ 90) :
    (jsToLower c).toNat = c.toNat + 32 := by
  rw [jsToLower, if_pos]
  · exact char_toNat_ofNat_of_lt (by omega)
  · exact ⟨char_le_iff_toNat.2 h, char_le_iff_toNat.2 h2⟩

theorem jsToLower_toNat_of_not_upper {c : Char} (h : ¬ (65 ≤ c.toNat ∧ c.toNat ≤ 90)) :
    (jsToLower c).toNat = c.toNat := by
  rw [jsToLower, if_neg]
  intro hc
  exact h ⟨char_le_iff_toNat.1 hc.1, char_le_iff_toNat.1 hc.2⟩

theorem jsToLower_toNat (c : Char) :
    (jsToLower c).toNat =
      if 65 ≤ c.toNat ∧ c.toNat ≤ 90 then c.toNat + 32 else c.toNat := by
  by_cases h : 65 ≤ c.toNat ∧ c.toNat ≤ 90
  · rw [if_pos h]; exact jsToLower_toNat_of_upper h.1 h.2
  · rw [if_neg h]; exact jsToLower_toNat_of_not_upper h

theorem jsToUpper_toNat (c : Char) :
    (jsToUpper c).toNat =
      if 97 ≤ c.toNat ∧ c.toNat ≤ 122 then c.toNat - 32 else c.toNat := by
  by_cases h : 97 ≤ c.toNat ∧ c.toNat ≤ 122
  · rw [if_pos h, jsToUpper, if_pos ⟨char_le_iff_toNat.2 h.1, char_le_iff_toNat.2 h.2⟩]
    exact char_toNat_ofNat_of_lt (by omega)
  · rw [if_neg h, jsToUpper, if_neg]
    intro hc
    exact h ⟨char_le_iff_toNat.1 hc.1, char_le_iff_toNat.1 hc.2⟩

theorem isJsSpace_iff (c : Char) :
    isJsSpace c = true ↔
      c.toNat = 32 ∨ c.toNat = 9 ∨ c.toNat = 10 ∨ c.toNat = 11 ∨
        c.toNat = 12 ∨ c.toNat = 13 := by
  have h1 : (' ' : Char).toNat = 32 := rfl
  have h2 : ('\t' : Char).toNat = 9 := rfl
  have h3 : ('\n' : Char).toNat = 10 := rfl
  have h4 : ('\x0b' : Char).toNat = 11 := rfl
  have h5 : ('\x0c' : Char).toNat = 12 := rfl
  have h6 : ('\r' : Char).toNat = 13 := rfl
  simp only [isJsSpace, Bool.or_eq_true, decide_eq_true_eq, char_eq_iff_toNat,
    h1, h2, h3, h4, h5, h6]
  tauto

theorem jsToLower_idem (c : Char) : jsToLower (jsToLower c) = jsToLower c := by
  apply char_toNat_injective
  simp only [jsToLower_toNat]
  split_ifs <;> omega

theorem isJsSpace_jsToLower (c : Char) : isJsSpace (jsToLower c) = isJsSpace c := by
  apply Bool.eq_iff_iff.mpr
  rw [isJsSpace_iff, isJsSpace_iff, jsToLower_toNat]
  split_ifs <;> omega

theorem isJsSpace_jsToUpper (c : Char) : isJsSpace (jsToUpper c) = isJsSpace c := by
  apply Bool.eq_iff_iff.mpr
  rw [isJsSpace_iff, isJsSpace_iff, jsToUpper_toNat]
  split_ifs <;> omega

theorem jsToLower_jsToUpper_of_fixed {c : Char} (h : jsToLower c = c) :
    jsToLower (jsToUpper c) = c := by
  apply char_toNat_injective
  have hfix : (jsToLower c).toNat = c.toNat := congrArg Char.toNat h
  rw [jsToLower_toNat] at hfix
  simp only [jsToLower_toNat, jsToUpper_toNat]
  split_ifs at hfix ⊢ <;> omega

theorem jsToLower_eq_space_iff (c : Char) : jsToLower c = ' ' ↔ c = ' ' := by
  rw [char_eq_iff_toNat, char_eq_iff_toNat, jsToLower_toNat]
  have h1 : (' ' : Char).toNat = 32 := rfl
  rw [h1]
  split_ifs <;> omega

/-! ## String-level helpers -/

theorem length_dropWhile_le (l : Str) (p : Char → Bool) :
    (l.dropWhile p).length ≤ l.length := by
  induction l with
  | nil => simp [List.dropWhile]
  | cons a t ih =>
    rw [List.dropWhile]
    split
    · exact Nat.le_succ_of_le ih
    · exact Nat.le_refl _

/-- `String.prototype.trim` (ASCII whitespace fragment). -/
def jsTrim (s : Str) : Str :=
  ((s.dropWhile isJsSpace).reverse.dropWhile isJsSpace).reverse

/-- Left-to-right scan implementing `.replace(/\\s+/g, " ")`: the flag
records whether the scan is inside a whitespace run whose single `' '`
replacement has already been emitted. -/
def collapseAux : Bool → Str → Str
  | _, [] => []
  | inRun, c :: rest =>
    if isJsSpace c then
      if inRun then collapseAux true rest
      else ' ' :: collapseAux true rest
    else c :: collapseAux false rest

/-- `.replace(/\\s+/g, " ")`: each maximal run of whitespace becomes a
single space. -/
def collapseWs (s : Str) : Str := collapseAux false s

/-- Lowercase an entire string. -/
def lowerStr (s : Str) : Str := s.map jsToLower

/-- `normalizeExerciseName` from `src/lib/workout-utils.ts`:
`name.trim().toLowerCase().replace(/\\s+/g, " ")`. -/
def normalizeExerciseName (name : Str) : Str :=
  collapseWs (lowerStr (jsTrim name))

/-! ## Normal-form facts about `jsTrim`, `collapseWs`, `lowerStr` -/

/-- Every whitespace character of the string is a plain space. -/
def SpacesBlank (s : Str) : Prop := ∀ c ∈ s, isJsSpace c = true → c = ' '

/-- No two adjacent whitespace characters. -/
def NoAdjSpace : Str → Prop
  | [] => True
  | c :: rest =>
    (isJsSpace c = true → ∀ d, rest.head? = some d → isJsSpace d = false) ∧
      NoAdjSpace rest

/-- No whitespace at the very start of the string. -/
def HeadNotSpace (s : Str) : Prop := ∀ c, s.head? = some c → isJsSpace c = false

/-- No whitespace at the very end of the string. -/
def LastNotSpace (s : Str) : Prop := ∀ c, s.getLast? = some c → isJsSpace c = false

theorem dropWhile_eq_self_of_head {p : Char → Bool} {l : Str}
    (h : ∀ c, l.head? = some c → p c = false) : l.dropWhile p = l := by
  cases l with
  | nil => rfl
  | cons a t => rw [List.dropWhile_cons, if_neg (by simp [h a rfl])]

theorem head_dropWhile_not {p : Char → Bool} (l : Str) :
    ∀ c, (l.dropWhile p).head? = some c → p c = false := by
  induction l with
  | nil => intro c h; simp at h
  | cons a t ih =>
    intro c h
    rw [List.dropWhile_cons] at h
    by_cases hp : p a = true
    · rw [if_pos hp] at h; exact ih c h
    · rw [if_neg hp] at h
      simp at h
      rw [← h]
      simpa using hp

theorem getLast_dropWhile {p : Char → Bool} (l : Str)
    (h : l.dropWhile p ≠ []) : (l.dropWhile p).getLast? = l.getLast? := by
  induction l with
  | nil => simp [List.dropWhile] at h
  | cons a t ih =>
    rw [List.dropWhile_cons]
    by_cases hp : p a = true
    · rw [List.dropWhile_cons, if_pos hp] at h
      rw [if_pos hp, ih h]
      cases t with
      | nil => simp [List.dropWhile] at h
      | cons b u => rw [List.getLast?_cons_cons]
    · rw [if_neg hp]

theorem jsTrim_head (s : Str) : HeadNotSpace (jsTrim s) := by
  intro c hc
  unfold jsTrim at hc
  set t1 := s.dropWhile isJsSpace with ht1
  set t3 := t1.reverse.dropWhile isJsSpace with ht3
  rw [List.head?_reverse] at hc
  have h3 : t3 ≠ [] := by
    intro h0; rw [h0] at hc; simp at hc
  rw [getLast_dropWhile _ h3, List.getLast?_reverse] at hc
  exact head_dropWhile_not s c hc

theorem jsTrim_last (s : Str) : LastNotSpace (jsTrim s) := by
  intro c hc
  unfold jsTrim at hc
  rw [List.getLast?_reverse] at hc
  exact head_dropWhile_not _ c hc

theorem jsTrim_eq_self {s : Str} (hh : HeadNotSpace s) (hl : LastNotSpace s) :
    jsTrim s = s := by
  unfold jsTrim
  rw [dropWhile_eq_self_of_head hh]
  rw [dropWhile_eq_self_of_head (by
    intro c hc
    rw [List.head?_reverse] at hc
    exact hl c hc)]
  exact List.reverse_reverse s


theorem collapseWs_nil : collapseWs [] = [] := rfl

theorem getLast?_cons_ne {c : Char} {l : Str} (h : l ≠ []) :
    (c :: l).getLast? = l.getLast? := by
  cases l with
  | nil => exact absurd rfl h
  | cons b u => exact List.getLast?_cons_cons

theorem collapseWs_ne_nil {s : Str} (h : s ≠ []) : collapseWs s ≠ [] := by
  cases s with
  | nil => exact absurd rfl h
  | cons c rest =>
    by_cases hsp : isJsSpace c = true <;>
      simp [collapseWs, collapseAux, hsp]

theorem head?_collapseWs (s : Str) :
    (collapseWs s).head? = s.head?.map (fun c => if isJsSpace c then ' ' else c) := by
  cases s with
  | nil => rfl
  | cons c rest =>
    by_cases hsp : isJsSpace c = true <;>
      simp [collapseWs, collapseAux, hsp]

theorem collapseAux_spacesBlank (l : Str) : ∀ b, SpacesBlank (collapseAux b l) := by
  induction l with
  | nil => intro b c hc; simp [collapseAux] at hc
  | cons a t ih =>
    intro b c hc hsp
    rw [collapseAux] at hc
    by_cases ha : isJsSpace a = true
    · rw [if_pos ha] at hc
      cases b with
      | true => exact ih true c hc hsp
      | false =>
        rcases List.mem_cons.1 hc with h | h
        · exact h
        · exact ih true c h hsp
    · rw [if_neg ha] at hc
      rcases List.mem_cons.1 hc with h | h
      · rw [h] at hsp; exact absurd hsp ha
      · exact ih false c h hsp

theorem collapseWs_spacesBlank (s : Str) : SpacesBlank (collapseWs s) :=
  collapseAux_spacesBlank s false

theorem headNotSpace_collapseAux_true (l : Str) :
    ∀ d, (collapseAux true l).head? = some d → isJsSpace d = false := by
  induction l with
  | nil => intro d hd; simp [collapseAux] at hd
  | cons a t ih =>
    intro d hd
    rw [collapseAux] at hd
    by_cases ha : isJsSpace a = true
    · rw [if_pos ha, if_pos rfl] at hd
      exact ih d hd
    · rw [if_neg ha] at hd
      simp at hd
      rw [← hd]
      simpa using ha

theorem collapseAux_noAdj (l : Str) : ∀ b, NoAdjSpace (collapseAux b l) := by
  induction l with
  | nil => intro b; rw [collapseAux]; exact trivial
  | cons a t ih =>
    intro b
    rw [collapseAux]
    by_cases ha : isJsSpace a = true
    · rw [if_pos ha]
      cases b with
      | true => exact ih true
      | false =>
        refine ⟨?_, ih true⟩
        intro _ d hd
        exact headNotSpace_collapseAux_true t d hd
    · rw [if_neg ha]
      exact ⟨fun h => absurd h ha, ih false⟩

theorem collapseWs_noAdj (s : Str) : NoAdjSpace (collapseWs s) :=
  collapseAux_noAdj s false

theorem collapseAux_true_eq_nil_iff (l : Str) :
    collapseAux true l = [] ↔ ∀ c ∈ l, isJsSpace c = true := by
  induction l with
  | nil => simp [collapseAux]
  | cons a t ih =>
    rw [collapseAux]
    by_cases ha : isJsSpace a = true
    · rw [if_pos ha, if_pos rfl, ih]
      constructor
      · intro h c hc
        rcases List.mem_cons.1 hc with h0 | h0
        · rw [h0]; exact ha
        · exact h c h0
      · intro h c hc
        exact h c (List.mem_cons_of_mem a hc)
    · rw [if_neg ha]
      constructor
      · intro h; exact absurd h (by simp)
      · intro h
        exact absurd (h a (List.mem_cons_self a t)) ha

theorem collapseAux_lastNotSpace {l : Str} (h : LastNotSpace l) :
    ∀ b, LastNotSpace (collapseAux b l) := by
  induction l with
  | nil => intro b d hd; simp [collapseAux] at hd
  | cons a t ih =>
    intro b
    have hcons : collapseAux b (a :: t) =
        if isJsSpace a = true then
          (if b then collapseAux true t else ' ' :: collapseAux true t)
        else a :: collapseAux false t := rfl
    by_cases ha : isJsSpace a = true
    · have hrne : t ≠ [] := by
        intro h0
        have := h a (by rw [h0]; exact List.getLast?_singleton a)
        rw [ha] at this
        exact absurd this (by simp)
      have hlt : LastNotSpace t := by
        intro d hd
        exact h d (by rw [getLast?_cons_ne hrne]; exact hd)
      rw [hcons, if_pos ha]
      cases b with
      | true => rw [if_pos rfl]; exact ih hlt true
      | false =>
        rw [if_neg Bool.false_ne_true]
        have hXne : collapseAux true t ≠ [] := by
          intro h0
          have hall := (collapseAux_true_eq_nil_iff t).1 h0
          have hglast := List.getLast?_eq_getLast t hrne
          have hmem := List.getLast_mem hrne
          have hlast := hlt _ hglast
          rw [hall _ hmem] at hlast
          exact absurd hlast (by simp)
        intro d hd
        rw [getLast?_cons_ne hXne] at hd
        exact ih hlt true d hd
    · rw [hcons, if_neg ha]
      by_cases hrne : t = []
      · subst hrne
        intro d hd
        rw [show collapseAux false ([] : Str) = [] from rfl,
          List.getLast?_singleton] at hd
        simp at hd
        rw [← hd]
        simpa using ha
      · have hlt : LastNotSpace t := by
          intro d hd
          exact h d (by rw [getLast?_cons_ne hrne]; exact hd)
        have hne' : collapseAux false t ≠ [] := collapseWs_ne_nil hrne
        intro d hd
        rw [getLast?_cons_ne hne'] at hd
        exact ih hlt false d hd

theorem collapseWs_lastNotSpace {s : Str} (h : LastNotSpace s) :
    LastNotSpace (collapseWs s) :=
  collapseAux_lastNotSpace h false

theorem collapseAux_true_of_headNotSpace {l : Str}
    (h : ∀ d, l.head? = some d → isJsSpace d = false) :
    collapseAux true l = collapseAux false l := by
  cases l with
  | nil => rfl
  | cons a t =>
    have ha := h a rfl
    rw [collapseAux, collapseAux, if_neg (by simp [ha]), if_neg (by simp [ha])]

theorem collapseWs_eq_self {s : Str} (h1 : SpacesBlank s) (h2 : NoAdjSpace s) :
    collapseWs s = s := by
  rw [collapseWs]
  induction s with
  | nil => rfl
  | cons a t ih =>
    rw [collapseAux]
    by_cases ha : isJsSpace a = true
    · rw [if_pos ha, if_neg Bool.false_ne_true]
      have hblank : a = ' ' := h1 a (List.mem_cons_self a t) ha
      have hhead : ∀ d, t.head? = some d → isJsSpace d = false := h2.1 ha
      rw [collapseAux_true_of_headNotSpace hhead]
      rw [ih (fun d hd => h1 d (List.mem_cons_of_mem a hd)) h2.2, hblank]
    · rw [if_neg ha]
      rw [ih (fun d hd => h1 d (List.mem_cons_of_mem a hd)) h2.2]

theorem lowerStr_idem (s : Str) : lowerStr (lowerStr s) = lowerStr s := by
  induction s with
  | nil => rfl
  | cons c rest ih =>
    simp only [lowerStr, List.map_cons] at ih ⊢
    rw [jsToLower_idem]
    exact congrArg _ ih

theorem dropWhile_lowerStr (s : Str) :
    (lowerStr s).dropWhile isJsSpace = lowerStr (s.dropWhile isJsSpace) := by
  induction s with
  | nil => rfl
  | cons c rest ih =>
    simp only [lowerStr, List.map_cons, List.dropWhile_cons, isJsSpace_jsToLower]
    by_cases hsp : isJsSpace c = true
    · rw [if_pos hsp, if_pos hsp]; exact ih
    · rw [if_neg hsp, if_neg hsp]; rfl

theorem jsTrim_lowerStr (s : Str) : jsTrim (lowerStr s) = lowerStr (jsTrim s) := by
  unfold jsTrim
  rw [dropWhile_lowerStr]
  rw [show (lowerStr (s.dropWhile isJsSpace)).reverse
      = lowerStr (s.dropWhile isJsSpace).reverse from
    (List.map_reverse _ _).symm]
  rw [dropWhile_lowerStr]
  exact (List.map_reverse _ _).symm

theorem collapseAux_lowerStr (s : Str) :
    ∀ b, collapseAux b (lowerStr s) = lowerStr (collapseAux b s) := by
  induction s with
  | nil => intro b; rfl
  | cons c rest ih =>
    intro b
    simp only [lowerStr, List.map_cons]
    rw [collapseAux, collapseAux, isJsSpace_jsToLower]
    by_cases hsp : isJsSpace c = true
    · rw [if_pos hsp, if_pos hsp]
      cases b with
      | true =>
        rw [if_pos rfl, if_pos rfl]
        simpa only [lowerStr] using ih true
      | false =>
        rw [if_neg Bool.false_ne_true, if_neg Bool.false_ne_true, List.map_cons]
        rw [show jsToLower ' ' = ' ' from rfl]
        have iht := ih true
        simp only [lowerStr] at iht
        rw [iht]
    · rw [if_neg hsp, if_neg hsp, List.map_cons]
      simp only [lowerStr] at ih
      rw [ih false]

theorem collapseWs_lowerStr (s : Str) :
    collapseWs (lowerStr s) = lowerStr (collapseWs s) :=
  collapseAux_lowerStr s false

theorem normalizeExerciseName_headNotSpace (s : Str) :
    HeadNotSpace (normalizeExerciseName s) := by
  intro c hc
  unfold normalizeExerciseName at hc
  rw [head?_collapseWs] at hc
  cases hh : (lowerStr (jsTrim s)).head? with
  | none => rw [hh] at hc; simp at hc
  | some d =>
    rw [hh] at hc
    have hd : isJsSpace d = false := by
      cases hs : (jsTrim s).head? with
      | none => rw [lowerStr] at hh; rw [List.head?_map, hs] at hh; simp at hh
      | some e =>
        rw [lowerStr, List.head?_map, hs] at hh
        simp at hh
        rw [← hh, isJsSpace_jsToLower]
        exact jsTrim_head s e hs
    simp [hd] at hc
    rw [← hc]
    exact hd

theorem normalizeExerciseName_lastNotSpace (s : Str) :
    LastNotSpace (normalizeExerciseName s) := by
  unfold normalizeExerciseName
  refine collapseWs_lastNotSpace ?_
  intro c hc
  rw [lowerStr, List.getLast?_map] at hc
  cases hs : (jsTrim s).getLast? with
  | none => rw [hs] at hc; simp at hc
  | some e =>
    rw [hs] at hc
    simp at hc
    rw [← hc, isJsSpace_jsToLower]
    exact jsTrim_last s e hs

theorem lowerStr_normalizeExerciseName (s : Str) :
    lowerStr (normalizeExerciseName s) = normalizeExerciseName s := by
  unfold normalizeExerciseName
  rw [← collapseWs_lowerStr, lowerStr_idem]

theorem jsTrim_normalizeExerciseName (s : Str) :
    jsTrim (normalizeExerciseName s) = normalizeExerciseName s :=
  jsTrim_eq_self (normalizeExerciseName_headNotSpace s)
    (normalizeExerciseName_lastNotSpace s)

theorem collapseWs_normalizeExerciseName (s : Str) :
    collapseWs (normalizeExerciseName s) = normalizeExerciseName s :=
  collapseWs_eq_self (collapseWs_spacesBlank (lowerStr (jsTrim s)))
    (collapseWs_noAdj (lowerStr (jsTrim s)))

/-- C9: `normalizeExerciseName` is idempotent, and empty or all-whitespace
input is normalized to the empty string (the "no exercise" sentinel). -/
theorem normalizeExerciseName_idempotent_and_empty (s : Str) :
    normalizeExerciseName (normalizeExerciseName s) = normalizeExerciseName s ∧
      ((∀ c ∈ s, isJsSpace c = true) → normalizeExerciseName s = []) := by
  constructor
  · conv_lhs => rw [normalizeExerciseName]
    rw [jsTrim_normalizeExerciseName, lowerStr_normalizeExerciseName]
    exact collapseWs_normalizeExerciseName s
  · intro h
    rw [normalizeExerciseName]
    rw [show jsTrim s = [] by
      unfold jsTrim
      rw [List.dropWhile_eq_nil_iff.2 (fun x hx => h x hx)]
      rfl]
    rfl

/-- Witness for C9 at concrete inputs: idempotence on `"  Bench  PRESS "`,
and the all-whitespace input `"   "` normalizing to the empty string. -/
theorem normalizeExerciseName_idempotent_and_empty_witness :
    normalizeExerciseName (normalizeExerciseName ("  Bench  PRESS ".toList)) =
        normalizeExerciseName ("  Bench  PRESS ".toList) ∧
      normalizeExerciseName ("   ".toList) = [] :=
  ⟨(normalizeExerciseName_idempotent_and_empty ("  Bench  PRESS ".toList)).1,
    (normalizeExerciseName_idempotent_and_empty ("   ".toList)).2 (by decide)⟩

/-! ## Display-name normalization (`normalizeExerciseDisplayName`) -/

/-- The fixed misspelling-correction table `COMMON_WORD_FIXES` from
`src/app/workouts/new/workout-logger.tsx`, keyed by lowercase word. -/
def COMMON_WORD_FIXES : List (Str × Str) :=
  [("dumbell".toList, "dumbbell".toList),
   ("barbel".toList, "barbell".toList),
   ("barbelll".toList, "barbell".toList),
   ("pulldwon".toList, "pulldown".toList),
   ("shoudler".toList, "shoulder".toList),
   ("deltiod".toList, "deltoid".toList),
   ("tricep".toList, "triceps".toList),
   ("bicep".toList, "biceps".toList)]

/-- `COMMON_WORD_FIXES[lower] ?? lower`. -/
def fixWord (lower : Str) : Str :=
  (COMMON_WORD_FIXES.lookup lower).getD lower

/-- `fixed.charAt(0).toUpperCase() + fixed.slice(1)`. -/
def capitalizeWord : Str → Str
  | [] => []
  | c :: rest => jsToUpper c :: rest

/-- `String.prototype.split(" ")`. -/
def splitOnSpace : Str → List Str
  | [] => [[]]
  | c :: rest =>
    if c = ' ' then [] :: splitOnSpace rest
    else
      match splitOnSpace rest with
      | [] => [[c]]
      | w :: ws => (c :: w) :: ws

/-- `Array.prototype.join(" ")`. -/
def joinSpace : List Str → Str
  | [] => []
  | [w] => w
  | w :: ws => w ++ ' ' :: joinSpace ws

/-- One word of the display-name pipeline: lowercase, apply the
misspelling table, capitalize the first letter. -/
def displayWord (word : Str) : Str :=
  capitalizeWord (fixWord (lowerStr word))

/-- `normalizeExerciseDisplayName` from
`src/app/workouts/new/workout-logger.tsx`: whitespace cleanup, then each
word is lowercased, table-corrected and first-letter capitalized. -/
def normalizeExerciseDisplayName (value : Str) : Str :=
  let trimmed := collapseWs (jsTrim value)
  if trimmed = [] then []
  else joinSpace ((splitOnSpace trimmed).map displayWord)

theorem splitOnSpace_ne_nil (s : Str) : splitOnSpace s ≠ [] := by
  cases s with
  | nil => simp [splitOnSpace]
  | cons c rest =>
    rw [splitOnSpace]
    by_cases hc : c = ' '
    · rw [if_pos hc]; simp
    · rw [if_neg hc]
      cases splitOnSpace rest <;> simp

theorem splitOnSpace_lowerStr (s : Str) :
    splitOnSpace (lowerStr s) = (splitOnSpace s).map lowerStr := by
  induction s with
  | nil => rfl
  | cons c rest ih =>
    show splitOnSpace (jsToLower c :: lowerStr rest) = _
    rw [splitOnSpace, splitOnSpace]
    by_cases hc : c = ' '
    · rw [if_pos ((jsToLower_eq_space_iff c).2 hc), if_pos hc, ih, List.map_cons]
      rfl
    · rw [if_neg (fun h => hc ((jsToLower_eq_space_iff c).1 h)), if_neg hc, ih]
      cases hsplit : splitOnSpace rest with
      | nil => exact absurd hsplit (splitOnSpace_ne_nil rest)
      | cons w ws => simp [lowerStr]

theorem displayWord_lowerStr (w : Str) : displayWord (lowerStr w) = displayWord w := by
  unfold displayWord
  rw [lowerStr_idem]

/-- C6 counterexample: on input `"OHP"` the display normalizer returns
`"Ohp"` — the characters after the first letter do NOT retain the
uppercase the user typed, because the word is fully lowercased first. -/
theorem normalizeExerciseDisplayName_case_counterexample :
    normalizeExerciseDisplayName ("OHP".toList) = "Ohp".toList ∧
      normalizeExerciseDisplayName ("OHP".toList) ≠ "OHP".toList := by
  decide

/-- C6 (amended): `normalizeExerciseDisplayName` lowercases every word
before the table fix and the first-letter capitalization, so its output
is insensitive to the letter case the user typed. -/
theorem lowerStr_eq_nil_iff {l : Str} : lowerStr l = [] ↔ l = [] :=
  List.map_eq_nil_iff

theorem normalizeExerciseDisplayName_case_insensitive (s : Str) :
    normalizeExerciseDisplayName (lowerStr s) = normalizeExerciseDisplayName s := by
  simp only [normalizeExerciseDisplayName]
  rw [show jsTrim (lowerStr s) = lowerStr (jsTrim s) from jsTrim_lowerStr s]
  rw [show collapseWs (lowerStr (jsTrim s)) = lowerStr (collapseWs (jsTrim s)) from
    collapseWs_lowerStr _]
  by_cases h : collapseWs (jsTrim s) = []
  · rw [h]; rfl
  · rw [if_neg h, if_neg (fun h0 => h (lowerStr_eq_nil_iff.1 h0))]
    rw [splitOnSpace_lowerStr, List.map_map]
    exact congrArg _ (List.map_congr_left (fun w _ => displayWord_lowerStr w))

/-! ## Idempotence of the display-name normalizer -/

theorem splitOnSpace_word {w : Str} (h : ' ' ∉ w) : splitOnSpace w = [w] := by
  induction w with
  | nil => rfl
  | cons c rest ih =>
    rw [splitOnSpace, if_neg (fun h0 => h (by rw [← h0]; exact List.mem_cons_self c rest))]
    rw [ih (fun h0 => h (List.mem_cons_of_mem c h0))]

theorem splitOnSpace_word_append {w t : Str} (h : ' ' ∉ w) :
    splitOnSpace (w ++ ' ' :: t) = w :: splitOnSpace t := by
  induction w with
  | nil => rw [List.nil_append, splitOnSpace, if_pos rfl]
  | cons c rest ih =>
    rw [List.cons_append, splitOnSpace,
      if_neg (fun h0 => h (by rw [← h0]; exact List.mem_cons_self c rest))]
    rw [ih (fun h0 => h (List.mem_cons_of_mem c h0))]

theorem splitOnSpace_joinSpace {ws : List Str} (h : ∀ w ∈ ws, ' ' ∉ w)
    (hne : ws ≠ []) : splitOnSpace (joinSpace ws) = ws := by
  induction ws with
  | nil => exact absurd rfl hne
  | cons w rest ih =>
    cases rest with
    | nil =>
      rw [show joinSpace [w] = w from rfl]
      exact splitOnSpace_word (h w (List.mem_cons_self w []))
    | cons u us =>
      rw [show joinSpace (w :: u :: us) = w ++ ' ' :: joinSpace (u :: us) from rfl]
      rw [splitOnSpace_word_append (h w (List.mem_cons_self w _))]
      rw [ih (fun v hv => h v (List.mem_cons_of_mem w hv)) (by simp)]

theorem mem_splitOnSpace_no_space (s : Str) :
    ∀ w ∈ splitOnSpace s, ' ' ∉ w := by
  induction s with
  | nil =>
    intro w hw
    rw [show splitOnSpace [] = [[]] from rfl] at hw
    simp at hw
    simp [hw]
  | cons c rest ih =>
    intro w hw
    rw [splitOnSpace] at hw
    by_cases hc : c = ' '
    · rw [if_pos hc] at hw
      rcases List.mem_cons.1 hw with h0 | h0
      · simp [h0]
      · exact ih w h0
    · rw [if_neg hc] at hw
      cases hsplit : splitOnSpace rest with
      | nil => exact absurd hsplit (splitOnSpace_ne_nil rest)
      | cons v vs =>
        rw [hsplit] at hw
        rcases List.mem_cons.1 hw with h0 | h0
        · intro hmem
          rw [h0] at hmem
          rcases List.mem_cons.1 hmem with h1 | h1
          · exact hc h1.symm
          · exact ih v (hsplit ▸ List.mem_cons_self v vs) h1
        · exact ih w (hsplit ▸ List.mem_cons_of_mem v h0)

theorem mem_splitOnSpace_subset (s : Str) :
    ∀ w ∈ splitOnSpace s, ∀ c ∈ w, c ∈ s := by
  induction s with
  | nil =>
    intro w hw c hc
    rw [show splitOnSpace [] = [[]] from rfl] at hw
    simp at hw
    rw [hw] at hc
    simp at hc
  | cons a rest ih =>
    intro w hw c hc
    rw [splitOnSpace] at hw
    by_cases ha : a = ' '
    · rw [if_pos ha] at hw
      rcases List.mem_cons.1 hw with h0 | h0
      · rw [h0] at hc; simp at hc
      · exact List.mem_cons_of_mem a (ih w h0 c hc)
    · rw [if_neg ha] at hw
      cases hsplit : splitOnSpace rest with
      | nil => exact absurd hsplit (splitOnSpace_ne_nil rest)
      | cons v vs =>
        rw [hsplit] at hw
        rcases List.mem_cons.1 hw with h0 | h0
        · rw [h0] at hc
          rcases List.mem_cons.1 hc with h1 | h1
          · rw [h1]; exact List.mem_cons_self a rest
          · exact List.mem_cons_of_mem a
              (ih v (hsplit ▸ List.mem_cons_self v vs) c h1)
        · exact List.mem_cons_of_mem a
            (ih w (hsplit ▸ List.mem_cons_of_mem v h0) c hc)

theorem splitOnSpace_head_ne_nil {s : Str} (hne : s ≠ [])
    (hh : ∀ d, s.head? = some d → d ≠ ' ') :
    ∀ w, (splitOnSpace s).head? = some w → w ≠ [] := by
  cases s with
  | nil => exact absurd rfl hne
  | cons c rest =>
    intro w hw
    rw [splitOnSpace, if_neg (hh c rfl)] at hw
    cases hsplit : splitOnSpace rest with
    | nil => exact absurd hsplit (splitOnSpace_ne_nil rest)
    | cons v vs =>
      rw [hsplit] at hw
      simp at hw
      rw [← hw]
      simp

theorem splitOnSpace_tail_ne_nil (s : Str) (hadj : NoAdjSpace s)
    (hl : LastNotSpace s) : ∀ w ∈ (splitOnSpace s).tail, w ≠ [] := by
  induction s with
  | nil => intro w hw; simp [splitOnSpace] at hw
  | cons c rest ih =>
    intro w hw
    rw [splitOnSpace] at hw
    by_cases hc : c = ' '
    · rw [if_pos hc] at hw
      simp only [List.tail_cons] at hw
      have hspc : isJsSpace c = true := by rw [hc]; rfl
      have hrne : rest ≠ [] := by
        intro h0
        have := hl c (by rw [h0]; exact List.getLast?_singleton c)
        rw [hspc] at this
        exact absurd this (by simp)
      have hhead : ∀ d, rest.head? = some d → d ≠ ' ' := by
        intro d hd h0
        have := hadj.1 hspc d hd
        rw [h0] at this
        exact absurd this (by simp [isJsSpace])
      have hlrest : LastNotSpace rest := by
        intro d hd
        exact hl d (by rw [getLast?_cons_ne hrne]; exact hd)
      cases hsplit : splitOnSpace rest with
      | nil => exact absurd hsplit (splitOnSpace_ne_nil rest)
      | cons v vs =>
        rw [hsplit] at hw
        rcases List.mem_cons.1 hw with h0 | h0
        · rw [h0]
          exact splitOnSpace_head_ne_nil hrne hhead v (by rw [hsplit]; rfl)
        · exact ih hadj.2 hlrest w (by rw [hsplit]; exact h0)
    · rw [if_neg hc] at hw
      cases hsplit : splitOnSpace rest with
      | nil => exact absurd hsplit (splitOnSpace_ne_nil rest)
      | cons v vs =>
        rw [hsplit] at hw
        simp only [List.tail_cons] at hw
        by_cases hrne : rest = []
        · rw [hrne] at hsplit
          rw [show splitOnSpace [] = [[]] from rfl] at hsplit
          injection hsplit with h1 h2
          rw [← h2] at hw
          simp at hw
        · have hlrest : LastNotSpace rest := by
            intro d hd
            exact hl d (by rw [getLast?_cons_ne hrne]; exact hd)
          exact ih hadj.2 hlrest w (by rw [hsplit]; exact hw)

theorem splitOnSpace_pieces_ne_nil {s : Str} (hne : s ≠ []) (hh : HeadNotSpace s)
    (hl : LastNotSpace s) (hadj : NoAdjSpace s) :
    ∀ w ∈ splitOnSpace s, w ≠ [] := by
  intro w hw
  cases hsplit : splitOnSpace s with
  | nil => exact absurd hsplit (splitOnSpace_ne_nil s)
  | cons v vs =>
    rw [hsplit] at hw
    rcases List.mem_cons.1 hw with h0 | h0
    · rw [h0]
      refine splitOnSpace_head_ne_nil hne ?_ v (by rw [hsplit]; rfl)
      intro d hd h1
      have := hh d hd
      rw [h1] at this
      exact absurd this (by simp [isJsSpace])
    · exact splitOnSpace_tail_ne_nil s hadj hl w (by rw [hsplit]; exact h0)

/-- Concrete facts about the misspelling table, checked by evaluation:
every correction is nonempty, whitespace-free, already lowercase, and is
itself not a key of the table. -/
theorem COMMON_WORD_FIXES_facts :
    ∀ p ∈ COMMON_WORD_FIXES,
      p.2 ≠ [] ∧ (∀ c ∈ p.2, isJsSpace c = false) ∧ lowerStr p.2 = p.2 ∧
        COMMON_WORD_FIXES.lookup p.2 = none := by
  decide

theorem lookup_mem {α β : Type} [BEq α] [LawfulBEq α] {l : List (α × β)} {k : α}
    {v : β} (h : List.lookup k l = some v) : ∃ p ∈ l, p.2 = v := by
  induction l with
  | nil => simp [List.lookup] at h
  | cons a t ih =>
    rw [List.lookup] at h
    by_cases hk : (k == a.1) = true
    · rw [hk] at h
      simp at h
      exact ⟨a, List.mem_cons_self a t, h⟩
    · rw [Bool.not_eq_true] at hk
      rw [hk] at h
      simp at h
      obtain ⟨p, hp, hv⟩ := ih h
      exact ⟨p, List.mem_cons_of_mem a hp, hv⟩

theorem fixWord_cases (w : Str) :
    fixWord w = w ∧ COMMON_WORD_FIXES.lookup w = COMMON_WORD_FIXES.lookup w ∨
      ∃ p ∈ COMMON_WORD_FIXES, fixWord w = p.2 := by
  unfold fixWord
  cases h : COMMON_WORD_FIXES.lookup w with
  | none => exact Or.inl ⟨rfl, rfl⟩
  | some v =>
    obtain ⟨p, hp, hv⟩ := lookup_mem h
    exact Or.inr ⟨p, hp, by rw [Option.getD_some, hv]⟩

theorem lowerStr_fixpoint_iff {l : Str} :
    lowerStr l = l ↔ ∀ c ∈ l, jsToLower c = c := by
  constructor
  · intro h c hc
    induction l with
    | nil => simp at hc
    | cons a t ih =>
      simp only [lowerStr, List.map_cons, List.cons.injEq] at h
      rcases List.mem_cons.1 hc with h0 | h0
      · rw [h0]; exact h.1
      · exact ih h.2 h0
  · intro h
    induction l with
    | nil => rfl
    | cons a t ih =>
      simp only [lowerStr, List.map_cons, List.cons.injEq]
      exact ⟨h a (List.mem_cons_self a t),
        ih (fun c hc => h c (List.mem_cons_of_mem a hc))⟩

/-- The corrected lowercase word produced inside `displayWord`. -/
def coreWord (word : Str) : Str := fixWord (lowerStr word)

theorem coreWord_lower_fixed (w : Str) : lowerStr (coreWord w) = coreWord w := by
  unfold coreWord
  rcases fixWord_cases (lowerStr w) with ⟨h, _⟩ | ⟨p, hp, h⟩
  · rw [h]; exact lowerStr_idem w
  · rw [h]; exact (COMMON_WORD_FIXES_facts p hp).2.2.1

theorem coreWord_lookup_none (w : Str) :
    COMMON_WORD_FIXES.lookup (coreWord w) = none := by
  unfold coreWord fixWord
  cases h : COMMON_WORD_FIXES.lookup (lowerStr w) with
  | none => rw [Option.getD_none]; exact h
  | some v =>
    rw [Option.getD_some]
    obtain ⟨p, hp, hv⟩ := lookup_mem h
    rw [← hv]
    exact (COMMON_WORD_FIXES_facts p hp).2.2.2

theorem coreWord_ne_nil {w : Str} (h : w ≠ []) : coreWord w ≠ [] := by
  unfold coreWord
  rcases fixWord_cases (lowerStr w) with ⟨h0, _⟩ | ⟨p, hp, h0⟩
  · rw [h0]
    exact fun h1 => h (lowerStr_eq_nil_iff.1 h1)
  · rw [h0]
    exact (COMMON_WORD_FIXES_facts p hp).1

theorem coreWord_no_space {w : Str} (h : ∀ c ∈ w, isJsSpace c = false) :
    ∀ c ∈ coreWord w, isJsSpace c = false := by
  unfold coreWord
  rcases fixWord_cases (lowerStr w) with ⟨h0, _⟩ | ⟨p, hp, h0⟩
  · rw [h0]
    intro c hc
    simp only [lowerStr] at hc
    obtain ⟨d, hd, hdc⟩ := List.mem_map.1 hc
    rw [← hdc, isJsSpace_jsToLower]
    exact h d hd
  · rw [h0]
    exact (COMMON_WORD_FIXES_facts p hp).2.1

theorem lowerStr_capitalizeWord {v : Str} (h : lowerStr v = v) :
    lowerStr (capitalizeWord v) = v := by
  cases v with
  | nil => rfl
  | cons c rest =>
    simp only [lowerStr, List.map_cons, List.cons.injEq] at h
    simp only [capitalizeWord, lowerStr, List.map_cons, List.cons.injEq]
    exact ⟨jsToLower_jsToUpper_of_fixed h.1, h.2⟩

theorem displayWord_eq_capitalize (w : Str) :
    displayWord w = capitalizeWord (coreWord w) := rfl

theorem coreWord_capitalize (w : Str) :
    coreWord (capitalizeWord (coreWord w)) = coreWord w := by
  have h1 : lowerStr (capitalizeWord (coreWord w)) = coreWord w :=
    lowerStr_capitalizeWord (coreWord_lower_fixed w)
  rw [coreWord, h1, fixWord, coreWord_lookup_none w, Option.getD_none]

theorem displayWord_idem (w : Str) : displayWord (displayWord w) = displayWord w :=
  calc displayWord (displayWord w)
      = capitalizeWord (coreWord (capitalizeWord (coreWord w))) := rfl
    _ = capitalizeWord (coreWord w) := by rw [coreWord_capitalize]
    _ = displayWord w := rfl

theorem displayWord_ne_nil {w : Str} (h : w ≠ []) : displayWord w ≠ [] := by
  rw [displayWord_eq_capitalize]
  have := coreWord_ne_nil h
  cases hc : coreWord w with
  | nil => exact absurd hc this
  | cons c rest => simp [capitalizeWord]

theorem displayWord_no_space {w : Str} (h : ∀ c ∈ w, isJsSpace c = false) :
    ∀ c ∈ displayWord w, isJsSpace c = false := by
  rw [displayWord_eq_capitalize]
  have hcore := coreWord_no_space h
  cases hc : coreWord w with
  | nil => intro c hcmem; simp [capitalizeWord] at hcmem
  | cons d rest =>
    intro c hcmem
    simp only [capitalizeWord] at hcmem
    rcases List.mem_cons.1 hcmem with h0 | h0
    · rw [h0, isJsSpace_jsToUpper]
      exact hcore d (by rw [hc]; exact List.mem_cons_self d rest)
    · exact hcore c (by rw [hc]; exact List.mem_cons_of_mem d h0)

/-! Facts about `joinSpace` on lists of nonempty, whitespace-free words. -/

theorem joinSpace_ne_nil {ws : List Str} {w : Str} (hw : ws.head? = some w)
    (hne : w ≠ []) : joinSpace ws ≠ [] := by
  cases ws with
  | nil => simp at hw
  | cons v rest =>
    simp at hw
    cases rest with
    | nil => rw [show joinSpace [v] = v from rfl, hw]; exact hne
    | cons u us =>
      rw [show joinSpace (v :: u :: us) = v ++ ' ' :: joinSpace (u :: us) from rfl]
      simp

theorem joinSpace_head? {ws : List Str} {w : Str} (hw : ws.head? = some w)
    (hne : w ≠ []) : (joinSpace ws).head? = w.head? := by
  cases ws with
  | nil => simp at hw
  | cons v rest =>
    simp at hw
    cases rest with
    | nil => rw [show joinSpace [v] = v from rfl, hw]
    | cons u us =>
      rw [show joinSpace (v :: u :: us) = v ++ ' ' :: joinSpace (u :: us) from rfl]
      rw [hw] at *
      exact List.head?_append_of_ne_nil _ hne

theorem joinSpace_headNotSpace {ws : List Str}
    (hnn : ∀ w ∈ ws, w ≠ []) (hns : ∀ w ∈ ws, ∀ c ∈ w, isJsSpace c = false) :
    HeadNotSpace (joinSpace ws) := by
  intro c hc
  cases ws with
  | nil => simp [joinSpace] at hc
  | cons v rest =>
    have hv := hnn v (List.mem_cons_self v rest)
    rw [joinSpace_head? (by simp) hv] at hc
    cases v with
    | nil => exact absurd rfl hv
    | cons d u =>
      simp at hc
      rw [← hc]
      exact hns _ (List.mem_cons_self _ rest) d (List.mem_cons_self d u)

theorem joinSpace_lastNotSpace {ws : List Str}
    (hnn : ∀ w ∈ ws, w ≠ []) (hns : ∀ w ∈ ws, ∀ c ∈ w, isJsSpace c = false) :
    LastNotSpace (joinSpace ws) := by
  induction ws with
  | nil => intro c hc; simp [joinSpace] at hc
  | cons v rest ih =>
    cases rest with
    | nil =>
      intro c hc
      rw [show joinSpace [v] = v from rfl] at hc
      exact hns v (List.mem_cons_self v []) c (List.mem_of_mem_getLast? hc)
    | cons u us =>
      intro c hc
      rw [show joinSpace (v :: u :: us) = v ++ ' ' :: joinSpace (u :: us) from rfl] at hc
      rw [List.getLast?_append_of_ne_nil _ (by simp)] at hc
      have hjoin_ne : joinSpace (u :: us) ≠ [] :=
        joinSpace_ne_nil (by simp) (hnn u (List.mem_cons_of_mem v (List.mem_cons_self u us)))
      rw [getLast?_cons_ne hjoin_ne] at hc
      exact ih (fun w hw => hnn w (List.mem_cons_of_mem v hw))
        (fun w hw => hns w (List.mem_cons_of_mem v hw)) c hc

theorem noAdjSpace_append {w l : Str} (hw : ∀ c ∈ w, isJsSpace c = false)
    (hl : NoAdjSpace l) : NoAdjSpace (w ++ l) := by
  induction w with
  | nil => exact hl
  | cons c rest ih =>
    rw [List.cons_append]
    refine ⟨?_, ih (fun d hd => hw d (List.mem_cons_of_mem c hd))⟩
    intro hspc
    rw [hw c (List.mem_cons_self c rest)] at hspc
    exact absurd hspc (by simp)

theorem joinSpace_spacesBlank {ws : List Str}
    (hns : ∀ w ∈ ws, ∀ c ∈ w, isJsSpace c = false) :
    SpacesBlank (joinSpace ws) := by
  induction ws with
  | nil => intro c hc; simp [joinSpace] at hc
  | cons v rest ih =>
    cases rest with
    | nil =>
      intro c hc hsp
      rw [show joinSpace [v] = v from rfl] at hc
      rw [hns v (List.mem_cons_self v []) c hc] at hsp
      exact absurd hsp (by simp)
    | cons u us =>
      intro c hc hsp
      rw [show joinSpace (v :: u :: us) = v ++ ' ' :: joinSpace (u :: us) from rfl] at hc
      rcases List.mem_append.1 hc with h0 | h0
      · rw [hns v (List.mem_cons_self v _) c h0] at hsp
        exact absurd hsp (by simp)
      · rcases List.mem_cons.1 h0 with h1 | h1
        · exact h1
        · exact ih (fun w hw => hns w (List.mem_cons_of_mem v hw)) c h1 hsp

theorem joinSpace_noAdj {ws : List Str} (hnn : ∀ w ∈ ws, w ≠ [])
    (hns : ∀ w ∈ ws, ∀ c ∈ w, isJsSpace c = false) :
    NoAdjSpace (joinSpace ws) := by
  induction ws with
  | nil => exact trivial
  | cons v rest ih =>
    cases rest with
    | nil =>
      rw [show joinSpace [v] = v from rfl]
      have := @noAdjSpace_append v []
        (hns v (List.mem_cons_self v [])) trivial
      rwa [List.append_nil] at this
    | cons u us =>
      rw [show joinSpace (v :: u :: us) = v ++ ' ' :: joinSpace (u :: us) from rfl]
      refine noAdjSpace_append (hns v (List.mem_cons_self v _)) ⟨?_, ?_⟩
      · intro _ d hd
        have hu_ne : u ≠ [] := hnn u (List.mem_cons_of_mem v (List.mem_cons_self u us))
        rw [joinSpace_head? (by simp) hu_ne] at hd
        cases u with
        | nil => exact absurd rfl hu_ne
        | cons e t =>
          simp at hd
          rw [← hd]
          exact hns _ (List.mem_cons_of_mem v (List.mem_cons_self _ us)) e
            (List.mem_cons_self e t)
      · exact ih (fun w hw => hnn w (List.mem_cons_of_mem v hw))
          (fun w hw => hns w (List.mem_cons_of_mem v hw))

theorem cleaned_headNotSpace (s : Str) : HeadNotSpace (collapseWs (jsTrim s)) := by
  intro c hc
  rw [head?_collapseWs] at hc
  cases hh : (jsTrim s).head? with
  | none => rw [hh] at hc; simp at hc
  | some d =>
    rw [hh] at hc
    have hd := jsTrim_head s d hh
    simp [hd] at hc
    rw [← hc]
    exact hd

theorem cleaned_lastNotSpace (s : Str) : LastNotSpace (collapseWs (jsTrim s)) :=
  collapseWs_lastNotSpace (jsTrim_last s)

/-- C10: the display-name normalizer is idempotent (bit-for-bit) on ASCII
input: every output word lowercases back to its already-corrected form,
and no correction value of `COMMON_WORD_FIXES` is itself a key. -/
theorem normalizeExerciseDisplayName_idempotent (x : Str)
    (hx : ∀ c ∈ x, c.toNat < 128) :
    normalizeExerciseDisplayName (normalizeExerciseDisplayName x) =
      normalizeExerciseDisplayName x := by
  by_cases h : collapseWs (jsTrim x) = []
  · have hx0 : normalizeExerciseDisplayName x = [] := by
      simp only [normalizeExerciseDisplayName]
      rw [if_pos h]
    rw [hx0]
    rfl
  · have hhead : HeadNotSpace (collapseWs (jsTrim x)) := cleaned_headNotSpace x
    have hlast : LastNotSpace (collapseWs (jsTrim x)) := cleaned_lastNotSpace x
    have hblank : SpacesBlank (collapseWs (jsTrim x)) := collapseWs_spacesBlank _
    have hadj : NoAdjSpace (collapseWs (jsTrim x)) := collapseWs_noAdj _
    have hpieces_ne := splitOnSpace_pieces_ne_nil h hhead hlast hadj
    have hpieces_nospace :
        ∀ w ∈ splitOnSpace (collapseWs (jsTrim x)), ∀ c ∈ w, isJsSpace c = false := by
      intro w hw c hc
      by_cases hsp : isJsSpace c = true
      · have hcin := mem_splitOnSpace_subset _ w hw c hc
        have hcsp : c = ' ' := hblank c hcin hsp
        rw [hcsp] at hc
        exact absurd hc (mem_splitOnSpace_no_space _ w hw)
      · simpa using hsp
    have hws'_ne : ∀ w ∈ (splitOnSpace (collapseWs (jsTrim x))).map displayWord,
        w ≠ [] := by
      intro w hw
      obtain ⟨v, hv, hvw⟩ := List.mem_map.1 hw
      rw [← hvw]
      exact displayWord_ne_nil (hpieces_ne v hv)
    have hws'_nospace :
        ∀ w ∈ (splitOnSpace (collapseWs (jsTrim x))).map displayWord,
          ∀ c ∈ w, isJsSpace c = false := by
      intro w hw
      obtain ⟨v, hv, hvw⟩ := List.mem_map.1 hw
      rw [← hvw]
      exact displayWord_no_space (hpieces_nospace v hv)
    obtain ⟨v0, vs0, hsplit0⟩ :
        ∃ v0 vs0, splitOnSpace (collapseWs (jsTrim x)) = v0 :: vs0 := by
      cases hsp : splitOnSpace (collapseWs (jsTrim x)) with
      | nil => exact absurd hsp (splitOnSpace_ne_nil _)
      | cons v vs => exact ⟨v, vs, rfl⟩
    have hmap0 : (splitOnSpace (collapseWs (jsTrim x))).map displayWord =
        displayWord v0 :: vs0.map displayWord := by rw [hsplit0]; rfl
    have hout_ne :
        joinSpace ((splitOnSpace (collapseWs (jsTrim x))).map displayWord) ≠ [] := by
      have hhead : ((splitOnSpace (collapseWs (jsTrim x))).map displayWord).head?
          = some (displayWord v0) := by rw [hmap0]; rfl
      refine joinSpace_ne_nil hhead ?_
      exact hws'_ne (displayWord v0) (by rw [hmap0]; exact List.mem_cons_self _ _)
    have hx1 : normalizeExerciseDisplayName x =
        joinSpace ((splitOnSpace (collapseWs (jsTrim x))).map displayWord) := by
      simp only [normalizeExerciseDisplayName]
      rw [if_neg h]
    rw [hx1]
    have htrim2 := jsTrim_eq_self (joinSpace_headNotSpace hws'_ne hws'_nospace)
      (joinSpace_lastNotSpace hws'_ne hws'_nospace)
    have hcol2 := collapseWs_eq_self (joinSpace_spacesBlank hws'_nospace)
      (joinSpace_noAdj hws'_ne hws'_nospace)
    simp only [normalizeExerciseDisplayName]
    rw [htrim2, hcol2, if_neg hout_ne]
    rw [splitOnSpace_joinSpace
      (fun w hw hmem => by
        have := hws'_nospace w hw ' ' hmem
        simp [isJsSpace] at this)
      (by rw [hmap0]; simp)]
    rw [List.map_map]
    exact congrArg _ (List.map_congr_left (fun v _ => displayWord_idem v))

/-- Witness for C10 at a concrete ASCII input. -/
theorem normalizeExerciseDisplayName_idempotent_witness :
    normalizeExerciseDisplayName
        (normalizeExerciseDisplayName ("  dumbell  PRESS ".toList)) =
      normalizeExerciseDisplayName ("  dumbell  PRESS ".toList) :=
  normalizeExerciseDisplayName_idempotent ("  dumbell  PRESS ".toList) (by decide)

/-! ## Suggestion ranking (`scoreExerciseSuggestionMatch`,
`pickBestExerciseSuggestion`) -/

/-- `normalizeExerciseLookupKey` from
`src/app/workouts/new/workout-logger.tsx`:
`value.trim().toLowerCase().replace(/\s+/g, " ")`. -/
def normalizeExerciseLookupKey (value : Str) : Str :=
  collapseWs (lowerStr (jsTrim value))

/-- `String.prototype.indexOf` for a substring: first index at which
`needle` occurs in `hay`, or `none` (JS `-1`). -/
def subIndex (needle hay : Str) : Option Nat :=
  if needle.isPrefixOf hay then some 0
  else
    match hay with
    | [] => none
    | _ :: t => (subIndex needle t).map (· + 1)

/-- `String.prototype.includes`. -/
def strIncludes (hay needle : Str) : Bool := (subIndex needle hay).isSome

/-- `Math.max` on rationals (spelled out so that it evaluates in the
kernel). -/
def jsMaxQ (a b : ℚ) : ℚ := if a ≤ b then b else a

/-- The per-token contribution of the scoring loop in
`scoreExerciseSuggestionMatch`: +45 when the first occurrence of the
token starts the key or follows a space, else +22; tokens that do not
occur add nothing (dead branch, as survivors contain every token). -/
def tokenContribution (candidateKey token : Str) : ℚ :=
  match subIndex token candidateKey with
  | none => 0
  | some i =>
    if i = 0 ∨ candidateKey.getD (i - 1) ' ' = ' ' then 45 else 22

/-- `scoreExerciseSuggestionMatch` from
`src/app/workouts/new/workout-logger.tsx`. `none` models
`Number.NEGATIVE_INFINITY` (the non-finite score of rejected
candidates). -/
def scoreExerciseSuggestionMatch (queryKey candidateKey : Str) : Option ℚ :=
  if queryKey = [] ∨ queryKey = candidateKey then none
  else
    let queryTokens := (splitOnSpace queryKey).filter (fun t => t ≠ [])
    if queryTokens.isEmpty || queryTokens.any (fun t => !(strIncludes candidateKey t))
    then none
    else
      let base : ℚ :=
        if queryKey.isPrefixOf candidateKey then 280
        else if strIncludes candidateKey queryKey then 190
        else 0
      let withTokens : ℚ := queryTokens.foldl
        (fun acc t =>
          match subIndex t candidateKey with
          | none => acc
          | some i =>
            if i = 0 ∨ candidateKey.getD (i - 1) ' ' = ' ' then acc + 45
            else acc + 22)
        base
      let lengthPenalty : ℚ :=
        jsMaxQ 0 ((candidateKey.length : ℚ) - (queryKey.length : ℚ))
      some (withTokens - lengthPenalty * (1/2))

/-- One iteration of the `for (const suggestion of suggestions)` loop of
`pickBestExerciseSuggestion`; the running best is `(bestName, bestScore)`
with `none` for JS `null` / `-Infinity`. -/
def pickStep (lookupKey : Str) (st : Option Str × Option ℚ) (suggestion : Str) :
    Option Str × Option ℚ :=
  let candidateName := collapseWs (jsTrim suggestion)
  if candidateName = [] then st
  else
    let candidateKey := normalizeExerciseLookupKey candidateName
    match scoreExerciseSuggestionMatch lookupKey candidateKey with
    | none => st
    | some score =>
      let better : Bool :=
        match st.2, st.1 with
        | none, _ => true
        | some b, none => decide (score > b)
        | some b, some bn =>
          decide (score > b) ||
            (decide (score = b) && decide (candidateName.length < bn.length))
      if better then (some candidateName, some score) else st

/-- `pickBestExerciseSuggestion` from
`src/app/workouts/new/workout-logger.tsx`. -/
def pickBestExerciseSuggestion (rawQuery : Str) (suggestions : List Str) :
    Option Str :=
  let lookupKey := normalizeExerciseLookupKey rawQuery
  if lookupKey = [] then none
  else (suggestions.foldl (pickStep lookupKey) (none, none)).1

/-! ### The spec's reference ranker (written from §4.2 of the spec) -/

/-- Spec: "normalize `query` to tokens (split normalized key on
spaces)". -/
def specTokens (queryKey : Str) : List Str :=
  (splitOnSpace queryKey).filter (fun t => t ≠ [])

/-- Spec: "+45 if it starts at index 0 or immediately after a space in
the candidate key (i.e., aligns with a word boundary), else +22", read at
the position where the token is found (its first occurrence). -/
def specTokenBonus (candidateKey token : Str) : ℚ :=
  match subIndex token candidateKey with
  | none => 0
  | some i =>
    if i = 0 ∨ candidateKey.getD (i - 1) ' ' = ' ' then 45 else 22

/-- Spec scoring formula of §4.2 for a surviving candidate. -/
def specScore (queryKey candidateKey : Str) : ℚ :=
  (if queryKey.isPrefixOf candidateKey then (280 : ℚ)
   else if strIncludes candidateKey queryKey then 190 else 0)
    + ((specTokens queryKey).map (specTokenBonus candidateKey)).sum
    - (1 / 2) * jsMaxQ 0 ((candidateKey.length : ℚ) - (queryKey.length : ℚ))

/-- Spec: "Reject any candidate whose normalized key (a) equals the
query's normalized key exactly, or (b) does not contain every query
token as a substring." -/
def specSurvives (queryKey candidateKey : Str) : Bool :=
  decide (candidateKey ≠ queryKey) &&
    (specTokens queryKey).all (fun t => strIncludes candidateKey t)

/-- Spec: "highest score wins; tie-break prefers the shorter candidate
display name". -/
def specBetter (cur : Option (Str × ℚ)) (candName : Str) (candScore : ℚ) : Bool :=
  match cur with
  | none => true
  | some (bn, bs) =>
    decide (candScore > bs) ||
      (decide (candScore = bs) && decide (candName.length < bn.length))

/-- One candidate of the spec's selection loop: clean up the display
name, drop rejected candidates, keep the better of the current best and
the candidate. -/
def specStep (queryKey : Str) (cur : Option (Str × ℚ)) (suggestion : Str) :
    Option (Str × ℚ) :=
  let candName := collapseWs (jsTrim suggestion)
  if candName = [] then cur
  else
    let candKey := normalizeExerciseName candName
    if specSurvives queryKey candKey then
      if specBetter cur candName (specScore queryKey candKey) then
        some (candName, specScore queryKey candKey)
      else cur
    else cur

/-- `rankSuggestions` as §4.2 of the spec describes it: normalize, filter
survivors, score by the formula, select the highest score with the
shorter-display-name tie-break, `null` for an empty query or when no
candidate survives. -/
def specRankSuggestions (query : Str) (suggestions : List Str) : Option Str :=
  let queryKey := normalizeExerciseName query
  if queryKey = [] then none
  else (suggestions.foldl (specStep queryKey) none).map Prod.fst

/-! ### Equivalence of the implementation with the spec's ranker -/

theorem tokenFold_eq_sum (candidateKey : Str) (tokens : List Str) (init : ℚ) :
    tokens.foldl
      (fun acc t =>
        match subIndex t candidateKey with
        | none => acc
        | some i =>
          if i = 0 ∨ candidateKey.getD (i - 1) ' ' = ' ' then acc + 45
          else acc + 22)
      init
    = init + (tokens.map (specTokenBonus candidateKey)).sum := by
  induction tokens generalizing init with
  | nil => simp
  | cons t ts ih =>
    rw [List.foldl_cons, List.map_cons, List.sum_cons, ih]
    unfold specTokenBonus
    cases subIndex t candidateKey with
    | none => dsimp only; ring_nf
    | some i =>
      dsimp only
      by_cases hi : i = 0 ∨ candidateKey.getD (i - 1) ' ' = ' '
      · rw [if_pos hi, if_pos hi]
        ring
      · rw [if_neg hi, if_neg hi]
        ring

theorem any_not_includes_eq (candidateKey : Str) (tokens : List Str) :
    (tokens.any fun t => !(strIncludes candidateKey t)) =
      !(tokens.all fun t => strIncludes candidateKey t) := by
  induction tokens with
  | nil => rfl
  | cons t ts ih =>
    rw [List.any_cons, List.all_cons, ih]
    cases strIncludes candidateKey t <;> simp

theorem score_eq_spec (queryKey candidateKey : Str) (hq : queryKey ≠ [])
    (ht : specTokens queryKey ≠ []) :
    scoreExerciseSuggestionMatch queryKey candidateKey =
      (if specSurvives queryKey candidateKey
       then some (specScore queryKey candidateKey) else none) := by
  by_cases hqc : queryKey = candidateKey
  · rw [scoreExerciseSuggestionMatch, if_pos (Or.inr hqc)]
    have hsurv : specSurvives queryKey candidateKey = false := by
      rw [specSurvives]
      have : (decide (candidateKey ≠ queryKey)) = false := by simp [hqc]
      rw [this, Bool.false_and]
    rw [hsurv]
    simp
  · simp only [scoreExerciseSuggestionMatch]
    rw [if_neg (by push_neg; exact ⟨hq, hqc⟩)]
    have htokens : ((splitOnSpace queryKey).filter fun t => t ≠ []) =
        specTokens queryKey := rfl
    rw [htokens]
    rw [show (specTokens queryKey).isEmpty = false from by
      cases hsp : specTokens queryKey with
      | nil => exact absurd hsp ht
      | cons a l => rfl]
    rw [any_not_includes_eq]
    by_cases hall : ((specTokens queryKey).all fun t => strIncludes candidateKey t) = true
    · rw [hall]
      have hsurv : specSurvives queryKey candidateKey = true := by
        rw [specSurvives, hall, Bool.and_true, decide_eq_true_eq]
        exact fun h0 => hqc h0.symm
      rw [hsurv]
      simp only [Bool.not_true, Bool.or_false]
      rw [if_neg (by simp), if_pos trivial]
      rw [tokenFold_eq_sum, specScore]
      congr 1
      ring
    · rw [Bool.not_eq_true] at hall
      rw [hall]
      have hsurv : specSurvives queryKey candidateKey = false := by
        rw [specSurvives, hall, Bool.and_false]
      rw [hsurv]
      simp only [Bool.not_false, Bool.or_true]
      rw [if_pos trivial, if_neg (by simp)]

theorem normalizeExerciseLookupKey_eq_name (v : Str) :
    normalizeExerciseLookupKey v = normalizeExerciseName v := rfl

theorem specTokens_ne_nil {t : Str} (hne : t ≠ []) (hh : HeadNotSpace t) :
    specTokens t ≠ [] := by
  cases t with
  | nil => exact absurd rfl hne
  | cons c rest =>
    have hc : c ≠ ' ' := by
      intro h0
      have := hh c rfl
      rw [h0] at this
      simp [isJsSpace] at this
    rw [specTokens, splitOnSpace, if_neg hc]
    cases hsp : splitOnSpace rest with
    | nil => exact absurd hsp (splitOnSpace_ne_nil rest)
    | cons w ws => simp [List.filter]

/-- The state of the implementation loop corresponding to a spec-side
running best: the pair of its display name and its score. -/
def toPair (cur : Option (Str × ℚ)) : Option Str × Option ℚ :=
  (cur.map Prod.fst, cur.map Prod.snd)

theorem pickStep_toPair (lookupKey : Str) (hq : lookupKey ≠ [])
    (ht : specTokens lookupKey ≠ []) (s : Str) (cur : Option (Str × ℚ)) :
    pickStep lookupKey (toPair cur) s = toPair (specStep lookupKey cur s) := by
  simp only [pickStep, specStep]
  rw [normalizeExerciseLookupKey_eq_name, score_eq_spec _ _ hq ht]
  by_cases hcn : collapseWs (jsTrim s) = []
  · rw [if_pos hcn, if_pos hcn]
  · rw [if_neg hcn, if_neg hcn]
    by_cases hs : specSurvives lookupKey (normalizeExerciseName (collapseWs (jsTrim s))) = true
    · rw [hs]
      simp only [if_true]
      cases cur with
      | none =>
        simp [toPair, specBetter]
      | some p =>
        obtain ⟨n, sc⟩ := p
        simp only [toPair, Option.map_some']
        by_cases hb :
            (decide (specScore lookupKey (normalizeExerciseName (collapseWs (jsTrim s))) > sc) ||
              (decide (specScore lookupKey (normalizeExerciseName (collapseWs (jsTrim s))) = sc) &&
                decide ((collapseWs (jsTrim s)).length < n.length))) = true
        · rw [show specBetter (some (n, sc)) (collapseWs (jsTrim s))
              (specScore lookupKey (normalizeExerciseName (collapseWs (jsTrim s)))) =
            (decide (specScore lookupKey (normalizeExerciseName (collapseWs (jsTrim s))) > sc) ||
              (decide (specScore lookupKey (normalizeExerciseName (collapseWs (jsTrim s))) = sc) &&
                decide ((collapseWs (jsTrim s)).length < n.length))) from rfl]
          simp only [hb, if_true]
          simp [toPair]
        · rw [show specBetter (some (n, sc)) (collapseWs (jsTrim s))
              (specScore lookupKey (normalizeExerciseName (collapseWs (jsTrim s)))) =
            (decide (specScore lookupKey (normalizeExerciseName (collapseWs (jsTrim s))) > sc) ||
              (decide (specScore lookupKey (normalizeExerciseName (collapseWs (jsTrim s))) = sc) &&
                decide ((collapseWs (jsTrim s)).length < n.length))) from rfl]
          rw [Bool.not_eq_true] at hb
          simp only [hb]
          simp [toPair]
    · rw [Bool.not_eq_true] at hs
      rw [hs]
      simp

theorem pickFold_rel (lookupKey : Str) (hq : lookupKey ≠ [])
    (ht : specTokens lookupKey ≠ []) (suggestions : List Str) :
    ∀ cur : Option (Str × ℚ),
      suggestions.foldl (pickStep lookupKey) (toPair cur) =
        toPair (suggestions.foldl (specStep lookupKey) cur) := by
  induction suggestions with
  | nil => intro cur; rfl
  | cons s ss ih =>
    intro cur
    rw [List.foldl_cons, List.foldl_cons, pickStep_toPair lookupKey hq ht s cur, ih]

/-- C1: `pickBestExerciseSuggestion` (with `scoreExerciseSuggestionMatch`)
implements the spec's reference ranker of §4.2: null on an empty
normalized query, rejection of self-matches and of candidates missing a
query token, the 280/190/45/22/0.5 scoring formula, and selection of the
highest score with the shorter-display-name tie-break. -/
theorem pickBestExerciseSuggestion_matches_spec (rawQuery : Str)
    (suggestions : List Str) :
    pickBestExerciseSuggestion rawQuery suggestions =
      specRankSuggestions rawQuery suggestions := by
  simp only [pickBestExerciseSuggestion, specRankSuggestions]
  rw [normalizeExerciseLookupKey_eq_name]
  by_cases h : normalizeExerciseName rawQuery = []
  · rw [if_pos h, if_pos h]
  · rw [if_neg h, if_neg h]
    have hfold := pickFold_rel (normalizeExerciseName rawQuery) h
      (specTokens_ne_nil h (normalizeExerciseName_headNotSpace rawQuery))
      suggestions none
    rw [show toPair none = ((none : Option Str), (none : Option ℚ)) from rfl] at hfold
    rw [hfold]
    rfl

theorem pickBestExerciseSuggestion_bench_example :
    pickBestExerciseSuggestion ("bench".toList)
      ["Barbell Bench Press".toList, "Incline Bench".toList, "Bench".toList] =
      some ("Incline Bench".toList) := by
  decide

/-! ## Per-session aggregation (`GET /api/workouts/insights`) -/

/-- One persisted set row as selected by the insights route:
`{reps, weightLb}`, with `weightLb` nullable. -/
structure WSet where
  reps : ℕ
  weightLb : Option ℚ
deriving DecidableEq

/-- The numeric fields of the route's `SessionAggregate` (the inert
`workoutId`/`workoutTitle`/`performedAt` fields are carried separately by
the grouping layer below). -/
structure SessionAggregate where
  setCount : ℕ
  totalReps : ℕ
  bestWeight : Option ℚ
  bestWeightReps : Option ℕ
  totalVolume : ℚ
deriving DecidableEq

def emptySessionAggregate : SessionAggregate :=
  { setCount := 0, totalReps := 0, bestWeight := none, bestWeightReps := none,
    totalVolume := 0 }

/-- The body of the `for (const set of exerciseLog.sets)` loop of the
insights route (lines 101-122): bump counts, then, for a non-null
weight, update the running best (strictly greater weight wins; an equal
weight updates `bestWeightReps` to a strictly higher rep count) and add
`weight * reps` to the volume. -/
def foldInsightSet (session : SessionAggregate) (st : WSet) : SessionAggregate :=
  let session1 := { session with
    setCount := session.setCount + 1
    totalReps := session.totalReps + st.reps }
  match st.weightLb with
  | none => session1
  | some weight =>
    let session2 :=
      match session1.bestWeight, session1.bestWeightReps with
      | none, _ =>
        { session1 with bestWeight := some weight, bestWeightReps := some st.reps }
      | some bw, brOpt =>
        if weight > bw then
          { session1 with bestWeight := some weight, bestWeightReps := some st.reps }
        else if weight = bw then
          match brOpt with
          | none => { session1 with bestWeightReps := some st.reps }
          | some br =>
            if st.reps > br then { session1 with bestWeightReps := some st.reps }
            else session1
        else session1
    { session2 with totalVolume := session2.totalVolume + weight * st.reps }

/-- Folding one exercise's sets of one session, starting from the
identity aggregate. -/
def sessionAggregateOfSets (sets : List WSet) : SessionAggregate :=
  sets.foldl foldInsightSet emptySessionAggregate

theorem foldInsightSet_bestWeight_none {agg : SessionAggregate} {st : WSet}
    (h : st.weightLb = none) :
    (foldInsightSet agg st).bestWeight = agg.bestWeight ∧
      (foldInsightSet agg st).bestWeightReps = agg.bestWeightReps := by
  rw [foldInsightSet, h]
  exact ⟨rfl, rfl⟩

theorem foldInsightSet_first_weight {agg : SessionAggregate} {st : WSet} {w : ℚ}
    (h : st.weightLb = some w) (hb : agg.bestWeight = none) :
    (foldInsightSet agg st).bestWeight = some w ∧
      (foldInsightSet agg st).bestWeightReps = some st.reps := by
  rw [foldInsightSet, h]
  simp only [hb]
  simp

theorem foldInsightSet_gt {agg : SessionAggregate} {st : WSet} {w bw : ℚ}
    (h : st.weightLb = some w) (hb : agg.bestWeight = some bw) (hgt : w > bw) :
    (foldInsightSet agg st).bestWeight = some w ∧
      (foldInsightSet agg st).bestWeightReps = some st.reps := by
  rw [foldInsightSet, h]
  simp only [hb]
  rw [if_pos hgt]
  simp

theorem foldInsightSet_eq_none_reps {agg : SessionAggregate} {st : WSet} {bw : ℚ}
    (h : st.weightLb = some bw) (hb : agg.bestWeight = some bw)
    (hr : agg.bestWeightReps = none) :
    (foldInsightSet agg st).bestWeight = some bw ∧
      (foldInsightSet agg st).bestWeightReps = some st.reps := by
  rw [foldInsightSet, h]
  simp only [hb, hr]
  rw [if_neg (lt_irrefl bw)]
  simp

theorem foldInsightSet_eq_some_reps {agg : SessionAggregate} {st : WSet} {bw : ℚ}
    {br : ℕ} (h : st.weightLb = some bw) (hb : agg.bestWeight = some bw)
    (hr : agg.bestWeightReps = some br) :
    (foldInsightSet agg st).bestWeight = some bw ∧
      (foldInsightSet agg st).bestWeightReps =
        some (if st.reps > br then st.reps else br) := by
  rw [foldInsightSet, h]
  simp only [hb, hr]
  rw [if_neg (lt_irrefl bw), if_pos trivial]
  by_cases hgt : st.reps > br
  · rw [if_pos hgt, if_pos hgt]
    simp
  · rw [if_neg hgt, if_neg hgt]
    simp

theorem foldInsightSet_lt {agg : SessionAggregate} {st : WSet} {w bw : ℚ}
    (h : st.weightLb = some w) (hb : agg.bestWeight = some bw) (hlt : w < bw) :
    (foldInsightSet agg st).bestWeight = some bw ∧
      (foldInsightSet agg st).bestWeightReps = agg.bestWeightReps := by
  rw [foldInsightSet, h]
  simp only [hb]
  rw [if_neg (by exact not_lt_of_gt hlt), if_neg (by exact ne_of_lt hlt)]
  exact ⟨rfl, rfl⟩

/-- C8: in the per-session aggregate folded from one session's sets,
`bestWeight` is null exactly when no set has a weight and then
`bestWeightReps` is null too; otherwise `bestWeight` is the maximum
weight, attained by some set, and `bestWeightReps` is the highest rep
count among the sets tying at that maximum. -/
theorem sessionAggregate_bestWeight_spec (sets : List WSet) :
    ((sessionAggregateOfSets sets).bestWeight = none ↔
      ∀ st ∈ sets, st.weightLb = none) ∧
    ((sessionAggregateOfSets sets).bestWeight = none →
      (sessionAggregateOfSets sets).bestWeightReps = none) ∧
    (∀ M, (sessionAggregateOfSets sets).bestWeight = some M →
      (∃ st ∈ sets, st.weightLb = some M) ∧
      (∀ st ∈ sets, ∀ w, st.weightLb = some w → w ≤ M) ∧
      (∃ r, (sessionAggregateOfSets sets).bestWeightReps = some r ∧
        (∃ st ∈ sets, st.weightLb = some M ∧ st.reps = r) ∧
        (∀ st ∈ sets, st.weightLb = some M → st.reps ≤ r))) := by
  induction sets using List.reverseRecOn with
  | nil =>
    refine ⟨by simp [sessionAggregateOfSets, emptySessionAggregate], fun _ => rfl, ?_⟩
    intro M hM
    rw [show (sessionAggregateOfSets []).bestWeight = none from rfl] at hM
    cases hM
  | append_singleton l a ih =>
    obtain ⟨ih1, ih2, ih3⟩ := ih
    have hfold : sessionAggregateOfSets (l ++ [a]) =
        foldInsightSet (sessionAggregateOfSets l) a := by
      rw [sessionAggregateOfSets, List.foldl_append, List.foldl_cons, List.foldl_nil]
      rfl
    cases ha : a.weightLb with
    | none =>
      obtain ⟨e1, e2⟩ := @foldInsightSet_bestWeight_none (sessionAggregateOfSets l) a ha
      rw [hfold]
      refine ⟨?_, ?_, ?_⟩
      · rw [e1, ih1]
        constructor
        · intro h st hst
          rcases List.mem_append.1 hst with h0 | h0
          · exact h st h0
          · rw [List.mem_singleton.1 h0]; exact ha
        · intro h st hst
          exact h st (List.mem_append_left _ hst)
      · rw [e1, e2]; exact ih2
      · intro M hM
        rw [e1] at hM
        obtain ⟨g1, g2, r, g3, g4, g5⟩ := ih3 M hM
        refine ⟨?_, ?_, r, ?_, ?_, ?_⟩
        · obtain ⟨st, hst, hw⟩ := g1
          exact ⟨st, List.mem_append_left _ hst, hw⟩
        · intro st hst w hw
          rcases List.mem_append.1 hst with h0 | h0
          · exact g2 st h0 w hw
          · rw [List.mem_singleton.1 h0] at hw
            rw [ha] at hw
            cases hw
        · rw [e2]; exact g3
        · obtain ⟨st, hst, hw, hr⟩ := g4
          exact ⟨st, List.mem_append_left _ hst, hw, hr⟩
        · intro st hst hw
          rcases List.mem_append.1 hst with h0 | h0
          · exact g5 st h0 hw
          · rw [List.mem_singleton.1 h0] at hw
            rw [ha] at hw
            cases hw
    | some w =>
      rw [hfold]
      cases hb : (sessionAggregateOfSets l).bestWeight with
      | none =>
        obtain ⟨e1, e2⟩ := foldInsightSet_first_weight ha hb
        have hallnone := ih1.1 hb
        refine ⟨?_, ?_, ?_⟩
        · rw [e1]
          constructor
          · intro h; cases h
          · intro h
            have := h a (List.mem_append_right _ (List.mem_singleton_self a))
            rw [ha] at this
            cases this
        · rw [e1]; intro h; cases h
        · intro M hM
          rw [e1] at hM
          injection hM with hMw
          refine ⟨⟨a, List.mem_append_right _ (List.mem_singleton_self a), by rw [ha, hMw]⟩,
            ?_, a.reps, by rw [e2], ⟨a, List.mem_append_right _ (List.mem_singleton_self a), by rw [ha, hMw], rfl⟩, ?_⟩
          · intro st hst w' hw'
            rcases List.mem_append.1 hst with h0 | h0
            · rw [hallnone st h0] at hw'; cases hw'
            · rw [List.mem_singleton.1 h0] at hw'
              rw [ha] at hw'
              injection hw' with hw2
              rw [← hw2, ← hMw]
          · intro st hst hw'
            rcases List.mem_append.1 hst with h0 | h0
            · rw [hallnone st h0] at hw'; cases hw'
            · rw [List.mem_singleton.1 h0]
      | some bw =>
        obtain ⟨g1, g2, r0, g3, g4, g5⟩ := ih3 bw hb
        rcases lt_trichotomy w bw with hcmp | hcmp | hcmp
        · obtain ⟨e1, e2⟩ := foldInsightSet_lt ha hb hcmp
          refine ⟨?_, ?_, ?_⟩
          · rw [e1]
            constructor
            · intro h; cases h
            · intro h
              have := h a (List.mem_append_right _ (List.mem_singleton_self a))
              rw [ha] at this
              cases this
          · rw [e1]; intro h; cases h
          · intro M hM
            rw [e1] at hM
            injection hM with hMw
            subst hMw
            refine ⟨?_, ?_, r0, ?_, ?_, ?_⟩
            · obtain ⟨st, hst, hw⟩ := g1
              exact ⟨st, List.mem_append_left _ hst, hw⟩
            · intro st hst w' hw'
              rcases List.mem_append.1 hst with h0 | h0
              · exact g2 st h0 w' hw'
              · rw [List.mem_singleton.1 h0] at hw'
                rw [ha] at hw'
                injection hw' with hw2
                rw [← hw2]
                exact le_of_lt hcmp
            · rw [e2]; exact g3
            · obtain ⟨st, hst, hw, hr⟩ := g4
              exact ⟨st, List.mem_append_left _ hst, hw, hr⟩
            · intro st hst hw
              rcases List.mem_append.1 hst with h0 | h0
              · exact g5 st h0 hw
              · rw [List.mem_singleton.1 h0] at hw
                rw [ha] at hw
                injection hw with hw2
                exact absurd hw2 (ne_of_lt hcmp)
        · subst hcmp
          obtain ⟨r1, hsome⟩ : ∃ r1, (sessionAggregateOfSets l).bestWeightReps = some r1 :=
            ⟨r0, g3⟩
          obtain ⟨e1, e2⟩ := foldInsightSet_eq_some_reps ha hb hsome
          rw [g3] at hsome
          injection hsome with hr01
          subst hr01
          refine ⟨?_, ?_, ?_⟩
          · rw [e1]
            constructor
            · intro h; cases h
            · intro h
              have := h a (List.mem_append_right _ (List.mem_singleton_self a))
              rw [ha] at this
              cases this
          · rw [e1]; intro h; cases h
          · intro M hM
            rw [e1] at hM
            injection hM with hMw
            subst hMw
            refine ⟨?_, ?_, ?_⟩
            · obtain ⟨st, hst, hw⟩ := g1
              exact ⟨st, List.mem_append_left _ hst, hw⟩
            · intro st hst w' hw'
              rcases List.mem_append.1 hst with h0 | h0
              · exact g2 st h0 w' hw'
              · rw [List.mem_singleton.1 h0] at hw'
                rw [ha] at hw'
                injection hw' with hw2
                rw [← hw2]
            · refine ⟨if a.reps > r0 then a.reps else r0, by rw [e2], ?_, ?_⟩
              · by_cases hgt : a.reps > r0
                · rw [if_pos hgt]
                  exact ⟨a, List.mem_append_right _ (List.mem_singleton_self a), ha, rfl⟩
                · rw [if_neg hgt]
                  obtain ⟨st, hst, hw, hr⟩ := g4
                  exact ⟨st, List.mem_append_left _ hst, hw, hr⟩
              · intro st hst hw
                rcases List.mem_append.1 hst with h0 | h0
                · have := g5 st h0 hw
                  by_cases hgt : a.reps > r0
                  · rw [if_pos hgt]; exact le_of_lt (lt_of_le_of_lt this hgt)
                  · rw [if_neg hgt]; exact this
                · rw [List.mem_singleton.1 h0]
                  by_cases hgt : a.reps > r0
                  · rw [if_pos hgt]
                  · rw [if_neg hgt]; omega
        · obtain ⟨e1, e2⟩ := foldInsightSet_gt ha hb hcmp
          refine ⟨?_, ?_, ?_⟩
          · rw [e1]
            constructor
            · intro h; cases h
            · intro h
              have := h a (List.mem_append_right _ (List.mem_singleton_self a))
              rw [ha] at this
              cases this
          · rw [e1]; intro h; cases h
          · intro M hM
            rw [e1] at hM
            injection hM with hMw
            subst hMw
            refine ⟨⟨a, List.mem_append_right _ (List.mem_singleton_self a), ha⟩, ?_,
              a.reps, by rw [e2], ⟨a, List.mem_append_right _ (List.mem_singleton_self a), ha, rfl⟩, ?_⟩
            · intro st hst w' hw'
              rcases List.mem_append.1 hst with h0 | h0
              · exact le_of_lt (lt_of_le_of_lt (g2 st h0 w' hw') hcmp)
              · rw [List.mem_singleton.1 h0] at hw'
                rw [ha] at hw'
                injection hw' with hw2
                rw [← hw2]
            · intro st hst hw
              rcases List.mem_append.1 hst with h0 | h0
              · exact absurd (g2 st h0 w hw) (not_le_of_gt hcmp)
              · rw [List.mem_singleton.1 h0]

/-- Witness for C8 at a concrete session: sets (5×100), (3×120),
(6×120) give best weight 120 with 6 reps (the higher of the tying
reps). -/
theorem sessionAggregate_bestWeight_spec_witness :
    ∃ r, (sessionAggregateOfSets
        [⟨5, some 100⟩, ⟨3, some 120⟩, ⟨6, some 120⟩]).bestWeightReps = some r ∧
      (∃ st ∈ [(⟨5, some 100⟩ : WSet), ⟨3, some 120⟩, ⟨6, some 120⟩],
        st.weightLb = some 120 ∧ st.reps = r) ∧
      (∀ st ∈ [(⟨5, some 100⟩ : WSet), ⟨3, some 120⟩, ⟨6, some 120⟩],
        st.weightLb = some 120 → st.reps ≤ r) :=
  ((sessionAggregate_bestWeight_spec
    [⟨5, some 100⟩, ⟨3, some 120⟩, ⟨6, some 120⟩]).2.2 120 (by decide)).2.2

/-! ## All-time best weight over the insights query window (C4) -/

/-- One row of the insights query result: a `workoutExercise` row with
its parent workout's id and timestamp and its sets. The query returns
rows ordered by `performedAt` descending and capped at `take: 120`. -/
structure ExerciseLogRow where
  workoutId : ℕ
  performedAt : ℤ
  sets : List WSet
deriving DecidableEq

/-- The `sessionsByWorkoutId` map of the insights route as an
association list in insertion order: a row folds its sets into the
existing aggregate of its workout id, or appends a fresh one. -/
def insertRow : List (ℕ × ℤ × SessionAggregate) → ExerciseLogRow →
    List (ℕ × ℤ × SessionAggregate)
  | [], row =>
    [(row.workoutId, row.performedAt, row.sets.foldl foldInsightSet emptySessionAggregate)]
  | (id, t, agg) :: rest, row =>
    if id = row.workoutId then (id, t, row.sets.foldl foldInsightSet agg) :: rest
    else (id, t, agg) :: insertRow rest row

def sessionsByWorkoutId (rows : List ExerciseLogRow) :
    List (ℕ × ℤ × SessionAggregate) :=
  rows.foldl insertRow []

/-- The `reduce` at lines 132-142 of the insights route: combine the
running maximum with one session's `bestWeight`, skipping null. -/
def allTimeBestStep (acc : Option ℚ) (b : Option ℚ) : Option ℚ :=
  match b with
  | none => acc
  | some bw =>
    match acc with
    | none => some bw
    | some m => some (jsMaxQ m bw)

def maxOfList (l : List (Option ℚ)) : Option ℚ :=
  l.foldl allTimeBestStep none

/-- `allTimeBestWeight` as computed by `GET /api/workouts/insights`: the
maximum session `bestWeight` over the grouped rows of the query result —
which the query caps at the 120 most recent rows (`take: 120`, ordered by
`performedAt` desc; the in-code sort of the groups does not affect the
maximum). -/
def allTimeBestWeightOfRows (rows : List ExerciseLogRow) : Option ℚ :=
  maxOfList ((sessionsByWorkoutId (rows.take 120)).map (fun e => e.2.2.bestWeight))

/-- The spec's all-time best weight: "max bestWeight across all
per-session aggregates for that exercise", over the user's entire
history. -/
def specAllTimeBestWeight (rows : List ExerciseLogRow) : Option ℚ :=
  maxOfList ((sessionsByWorkoutId rows).map (fun e => e.2.2.bestWeight))

/-- All non-null set weights of the given rows. -/
def allWeights (rows : List ExerciseLogRow) : List ℚ :=
  (rows.map (fun row => row.sets.filterMap (fun st => st.weightLb))).flatten

/-- 121 exercise-log rows, ordered most-recent-first, where only the
oldest row (dropped by `take: 120`) holds the heaviest weight. -/
def c4Rows : List ExerciseLogRow :=
  (List.range 121).map
    (fun i => ⟨i, (121 : ℤ) - i, [⟨5, some (if i = 120 then 999 else 100)⟩]⟩)

theorem jsMaxQ_eq_max (a b : ℚ) : jsMaxQ a b = max a b := by
  rw [jsMaxQ, max_def]

theorem allTimeBestStep_none_left (b : Option ℚ) : allTimeBestStep none b = b := by
  cases b <;> rfl

theorem allTimeBestStep_none_right (a : Option ℚ) : allTimeBestStep a none = a := rfl

theorem allTimeBestStep_assoc (a b c : Option ℚ) :
    allTimeBestStep (allTimeBestStep a b) c = allTimeBestStep a (allTimeBestStep b c) := by
  cases a <;> cases b <;> cases c <;>
    simp [allTimeBestStep, jsMaxQ_eq_max, max_assoc]

theorem allTimeBestStep_comm (a b : Option ℚ) :
    allTimeBestStep a b = allTimeBestStep b a := by
  cases a <;> cases b <;> simp [allTimeBestStep, jsMaxQ_eq_max, max_comm]

theorem foldl_allTimeBestStep (l : List (Option ℚ)) :
    ∀ a, l.foldl allTimeBestStep a = allTimeBestStep a (maxOfList l) := by
  induction l with
  | nil => intro a; rfl
  | cons x t ih =>
    intro a
    rw [List.foldl_cons, ih (allTimeBestStep a x), allTimeBestStep_assoc]
    rw [show maxOfList (x :: t) = allTimeBestStep x (maxOfList t) from by
      rw [maxOfList, List.foldl_cons, ih (allTimeBestStep none x),
        allTimeBestStep_none_left]]

theorem maxOfList_cons (x : Option ℚ) (t : List (Option ℚ)) :
    maxOfList (x :: t) = allTimeBestStep x (maxOfList t) := by
  rw [maxOfList, List.foldl_cons, foldl_allTimeBestStep, allTimeBestStep_none_left]

theorem maxOfList_append (l1 l2 : List (Option ℚ)) :
    maxOfList (l1 ++ l2) = allTimeBestStep (maxOfList l1) (maxOfList l2) := by
  rw [maxOfList, List.foldl_append, foldl_allTimeBestStep]
  rfl

theorem foldInsightSet_bestWeight (agg : SessionAggregate) (st : WSet) :
    (foldInsightSet agg st).bestWeight =
      allTimeBestStep agg.bestWeight st.weightLb := by
  cases ha : st.weightLb with
  | none =>
    rw [(foldInsightSet_bestWeight_none ha).1, allTimeBestStep_none_right]
  | some w =>
    cases hb : agg.bestWeight with
    | none =>
      rw [(foldInsightSet_first_weight ha hb).1, allTimeBestStep_none_left]
    | some bw =>
      rcases lt_trichotomy w bw with hcmp | hcmp | hcmp
      · rw [(foldInsightSet_lt ha hb hcmp).1]
        rw [show allTimeBestStep (some bw) (some w) = some (jsMaxQ bw w) from rfl]
        rw [jsMaxQ_eq_max, max_eq_left (le_of_lt hcmp)]
      · subst hcmp
        cases hr : agg.bestWeightReps with
        | none =>
          rw [(foldInsightSet_eq_none_reps ha hb hr).1]
          rw [show allTimeBestStep (some w) (some w) = some (jsMaxQ w w) from rfl]
          rw [jsMaxQ_eq_max, max_self]
        | some br =>
          rw [(foldInsightSet_eq_some_reps ha hb hr).1]
          rw [show allTimeBestStep (some w) (some w) = some (jsMaxQ w w) from rfl]
          rw [jsMaxQ_eq_max, max_self]
      · rw [(foldInsightSet_gt ha hb hcmp).1]
        rw [show allTimeBestStep (some bw) (some w) = some (jsMaxQ bw w) from rfl]
        rw [jsMaxQ_eq_max, max_eq_right (le_of_lt hcmp)]

/-- The maximum non-null set weight of a list of sets. -/
def setsWeightMax (sets : List WSet) : Option ℚ :=
  maxOfList ((sets.filterMap (fun st => st.weightLb)).map some)

theorem bestWeight_foldl_sets (sets : List WSet) :
    ∀ agg, (sets.foldl foldInsightSet agg).bestWeight =
      allTimeBestStep agg.bestWeight (setsWeightMax sets) := by
  induction sets with
  | nil => intro agg; rfl
  | cons st rest ih =>
    intro agg
    rw [List.foldl_cons, ih, foldInsightSet_bestWeight]
    cases ha : st.weightLb with
    | none =>
      rw [allTimeBestStep_none_right]
      rw [show setsWeightMax (st :: rest) = setsWeightMax rest from by
        rw [setsWeightMax, setsWeightMax, List.filterMap_cons, ha]]
    | some w =>
      rw [allTimeBestStep_assoc]
      rw [show setsWeightMax (st :: rest) =
          allTimeBestStep (some w) (setsWeightMax rest) from by
        rw [setsWeightMax, setsWeightMax, List.filterMap_cons, ha]
        rw [List.map_cons, maxOfList_cons]]

theorem insertRow_bestMax (row : ExerciseLogRow) :
    ∀ acc : List (ℕ × ℤ × SessionAggregate),
      maxOfList ((insertRow acc row).map (fun e => e.2.2.bestWeight)) =
        allTimeBestStep (maxOfList (acc.map (fun e => e.2.2.bestWeight)))
          (setsWeightMax row.sets) := by
  intro acc
  induction acc with
  | nil =>
    rw [insertRow, List.map_cons, List.map_nil, maxOfList_cons]
    rw [show maxOfList ([] : List (Option ℚ)) = none from rfl]
    rw [allTimeBestStep_none_right, allTimeBestStep_none_left]
    dsimp only
    rw [bestWeight_foldl_sets]
    rw [show emptySessionAggregate.bestWeight = none from rfl]
    rw [allTimeBestStep_none_left]
  | cons e rest ih =>
    obtain ⟨id, t, agg⟩ := e
    rw [insertRow]
    by_cases hid : id = row.workoutId
    · rw [if_pos hid]
      rw [List.map_cons, List.map_cons, maxOfList_cons, maxOfList_cons]
      dsimp only
      rw [bestWeight_foldl_sets]
      rw [allTimeBestStep_assoc, allTimeBestStep_assoc]
      rw [allTimeBestStep_comm (setsWeightMax row.sets)
        (maxOfList (List.map (fun e => e.2.2.bestWeight) rest))]
    · rw [if_neg hid]
      rw [List.map_cons, List.map_cons, maxOfList_cons, maxOfList_cons, ih]
      rw [← allTimeBestStep_assoc]

theorem foldl_insertRow_bestMax (rows : List ExerciseLogRow) :
    ∀ acc : List (ℕ × ℤ × SessionAggregate),
      maxOfList ((rows.foldl insertRow acc).map (fun e => e.2.2.bestWeight)) =
        allTimeBestStep (maxOfList (acc.map (fun e => e.2.2.bestWeight)))
          (maxOfList ((allWeights rows).map some)) := by
  induction rows with
  | nil =>
    intro acc
    rw [show allWeights [] = [] from rfl]
    rw [show maxOfList (List.map some []) = none from rfl]
    rw [allTimeBestStep_none_right]
    rfl
  | cons row rest ih =>
    intro acc
    rw [List.foldl_cons, ih, insertRow_bestMax, allTimeBestStep_assoc]
    rw [show allWeights (row :: rest) =
        row.sets.filterMap (fun st => st.weightLb) ++ allWeights rest from by
      rw [allWeights, allWeights, List.map_cons, List.flatten_cons]]
    rw [List.map_append, maxOfList_append]
    rw [show maxOfList ((row.sets.filterMap fun st => st.weightLb).map some) =
      setsWeightMax row.sets from rfl]

set_option maxRecDepth 100000

theorem maxOfList_map_some_eq_none_iff (l : List ℚ) :
    maxOfList (l.map some) = none ↔ l = [] := by
  cases l with
  | nil => simp [maxOfList]
  | cons w t =>
    rw [List.map_cons, maxOfList_cons]
    constructor
    · intro h
      exfalso
      cases hmax : maxOfList (t.map some) with
      | none =>
        rw [hmax, allTimeBestStep_none_right] at h
        exact Option.noConfusion h
      | some m =>
        rw [hmax,
          show allTimeBestStep (some w) (some m) = some (jsMaxQ w m) from rfl] at h
        exact Option.noConfusion h
    · intro h; cases h

/-- C4 counterexample: with 121 exercise-log rows (most recent first)
where only the oldest row holds weight 999, the route computes
`allTimeBestWeight = 100` over its `take: 120` window, while the maximum
over all per-session aggregates of the entire history is 999. -/
theorem allTimeBestWeight_entire_history_counterexample :
    allTimeBestWeightOfRows c4Rows = some 100 ∧
      specAllTimeBestWeight c4Rows = some 999 ∧
      allTimeBestWeightOfRows c4Rows ≠ specAllTimeBestWeight c4Rows := by
  decide

/-- C4 (amended): the route's `allTimeBestWeight` is the maximum
per-session `bestWeight` across the per-session aggregates of the 120
most recent exercise-log rows only (the query's `take: 120` window), not
of the entire history; over that window it equals the maximum non-null
set weight, and it is null exactly when no set in the window has a
weight. -/
theorem allTimeBestWeight_take120 (rows : List ExerciseLogRow) :
    allTimeBestWeightOfRows rows = specAllTimeBestWeight (rows.take 120) ∧
      specAllTimeBestWeight (rows.take 120) =
        maxOfList ((allWeights (rows.take 120)).map some) ∧
      (allTimeBestWeightOfRows rows = none ↔ allWeights (rows.take 120) = []) := by
  have h2 : specAllTimeBestWeight (rows.take 120) =
      maxOfList ((allWeights (rows.take 120)).map some) := by
    rw [specAllTimeBestWeight, sessionsByWorkoutId, foldl_insertRow_bestMax]
    rw [show maxOfList (List.map (fun e => e.2.2.bestWeight)
      ([] : List (ℕ × ℤ × SessionAggregate))) = none from rfl]
    rw [allTimeBestStep_none_left]
  refine ⟨rfl, h2, ?_⟩
  rw [show allTimeBestWeightOfRows rows = specAllTimeBestWeight (rows.take 120) from rfl]
  rw [h2]
  exact maxOfList_map_some_eq_none_iff _

/-! ## Dashboard per-exercise aggregation (`exerciseSummaryMap`,
`src/app/dashboard/page.tsx` lines 401-436) -/

/-- One `workoutExercise` row of the dashboard query: display name,
parent workout id and timestamp, and sets. -/
structure DashboardItem where
  name : Str
  workoutId : ℕ
  performedAt : ℤ
  sets : List WSet
deriving DecidableEq

/-- The dashboard's per-exercise summary entry (the fields the loop
maintains; `sessions` models the JS `Set` as a duplicate-free list in
insertion order). -/
structure ExerciseSummary where
  key : Str
  name : Str
  sessions : List ℕ
  setCount : ℕ
  totalReps : ℕ
  bestWeight : ℚ
  lastPerformedAt : ℤ
deriving DecidableEq

/-- `item.sets.reduce((sum, set) => sum + set.reps, 0)`. -/
def sumReps (sets : List WSet) : ℕ :=
  sets.foldl (fun s st => s + st.reps) 0

/-- `item.sets.reduce((max, set) => Math.max(max, toWeightValue(set.weightLb) ?? 0), 0)`:
the dashboard's per-item best weight, flooring at `0` and coercing a
null weight to `0`. -/
def itemBestWeight (sets : List WSet) : ℚ :=
  sets.foldl (fun m st => jsMaxQ m (st.weightLb.getD 0)) 0

/-- JS `Set.prototype.add`. -/
def addSession (sessions : List ℕ) (id : ℕ) : List ℕ :=
  if id ∈ sessions then sessions else sessions ++ [id]

/-- The `!current` branch of the dashboard loop: a fresh summary. -/
def freshSummary (key : Str) (item : DashboardItem) : ExerciseSummary :=
  { key := key
    name := item.name
    sessions := [item.workoutId]
    setCount := item.sets.length
    totalReps := sumReps item.sets
    bestWeight := itemBestWeight item.sets
    lastPerformedAt := item.performedAt }

/-- The merge branch of the dashboard loop. -/
def mergeSummary (cur : ExerciseSummary) (item : DashboardItem) : ExerciseSummary :=
  { cur with
    sessions := addSession cur.sessions item.workoutId
    setCount := cur.setCount + item.sets.length
    totalReps := cur.totalReps + sumReps item.sets
    bestWeight := jsMaxQ cur.bestWeight (itemBestWeight item.sets)
    lastPerformedAt :=
      if item.performedAt > cur.lastPerformedAt then item.performedAt
      else cur.lastPerformedAt
    name :=
      if item.performedAt > cur.lastPerformedAt then item.name else cur.name }

/-- `exerciseSummaryMap.set(key, ...)` over an association list in
insertion order (JS `Map` semantics). -/
def upsertSummary : List (Str × ExerciseSummary) → Str → DashboardItem →
    List (Str × ExerciseSummary)
  | [], key, item => [(key, freshSummary key item)]
  | (k, cur) :: rest, key, item =>
    if k = key then (k, mergeSummary cur item) :: rest
    else (k, cur) :: upsertSummary rest key item

/-- One iteration of `for (const item of exerciseLogs)`: items whose
normalized name is empty are skipped. -/
def exerciseSummaryStep (acc : List (Str × ExerciseSummary)) (item : DashboardItem) :
    List (Str × ExerciseSummary) :=
  let key := normalizeExerciseName item.name
  if key = [] then acc else upsertSummary acc key item

/-- The dashboard's `exerciseSummaryMap`. -/
def exerciseSummaryMap (items : List DashboardItem) : List (Str × ExerciseSummary) :=
  items.foldl exerciseSummaryStep []

/-- All sets of the group of items sharing a normalized key — "all sets
in the group" in the words of the spec. -/
def groupSets (items : List DashboardItem) (key : Str) : List WSet :=
  ((items.filter (fun it => normalizeExerciseName it.name = key)).map
    (fun it => it.sets)).flatten

def c5Items : List DashboardItem :=
  [⟨"Pull Up".toList, 1, 10, [⟨5, none⟩]⟩]

/-- C5 counterexample: a group holding only a bodyweight set (null
weight) gets dashboard `bestWeight = 0` — a number, not null — while the
spec's "max across all sets with non-null weight; null if none" is
null. -/
theorem dashboard_bestWeight_counterexample :
    ((exerciseSummaryMap c5Items).lookup ("pull up".toList)).map
        (fun s => s.bestWeight) = some 0 ∧
      setsWeightMax (groupSets c5Items ("pull up".toList)) = none := by
  decide

theorem le_foldl_jsMax (sets : List WSet) :
    ∀ a : ℚ, a ≤ sets.foldl (fun m st => jsMaxQ m (st.weightLb.getD 0)) a := by
  induction sets with
  | nil => intro a; exact le_refl a
  | cons st rest ih =>
    intro a
    rw [List.foldl_cons]
    exact le_trans (by rw [jsMaxQ_eq_max]; exact le_max_left _ _) (ih _)

theorem itemBestWeight_nonneg (sets : List WSet) : 0 ≤ itemBestWeight sets :=
  le_foldl_jsMax sets 0

theorem setsWeightMax_append (l1 l2 : List WSet) :
    setsWeightMax (l1 ++ l2) = allTimeBestStep (setsWeightMax l1) (setsWeightMax l2) := by
  rw [setsWeightMax, List.filterMap_append, List.map_append, maxOfList_append]
  rfl

theorem maxOfList_map_some_mem (l : List ℚ) :
    ∀ w, maxOfList (l.map some) = some w → w ∈ l := by
  induction l with
  | nil => intro w h; cases h
  | cons x t ih =>
    intro w h
    rw [List.map_cons, maxOfList_cons] at h
    cases hm : maxOfList (t.map some) with
    | none =>
      rw [hm, allTimeBestStep_none_right] at h
      injection h with h0
      rw [← h0]
      exact List.mem_cons_self x t
    | some m =>
      rw [hm, show allTimeBestStep (some x) (some m) = some (jsMaxQ x m) from rfl] at h
      injection h with h0
      rw [jsMaxQ] at h0
      by_cases hle : x ≤ m
      · rw [if_pos hle] at h0
        rw [← h0]
        exact List.mem_cons_of_mem x (ih m hm)
      · rw [if_neg hle] at h0
        rw [← h0]
        exact List.mem_cons_self x t

theorem setsWeightMax_nonneg {sets : List WSet}
    (hpos : ∀ st ∈ sets, ∀ w, st.weightLb = some w → 0 ≤ w) :
    ∀ w, setsWeightMax sets = some w → 0 ≤ w := by
  intro w h
  have hmem := maxOfList_map_some_mem _ w h
  obtain ⟨st, hst, hw⟩ := List.mem_filterMap.1 hmem
  exact hpos st hst w hw

theorem getD_allTimeBestStep {a b : Option ℚ}
    (ha : ∀ w, a = some w → 0 ≤ w) (hb : ∀ w, b = some w → 0 ≤ w) :
    (allTimeBestStep a b).getD 0 = jsMaxQ (a.getD 0) (b.getD 0) := by
  cases a with
  | none =>
    cases b with
    | none =>
      rw [allTimeBestStep_none_right]
      rw [show ((none : Option ℚ).getD 0) = 0 from rfl, jsMaxQ_eq_max, max_self]
    | some w =>
      rw [allTimeBestStep_none_left]
      rw [show ((none : Option ℚ).getD 0) = 0 from rfl,
        show ((some w).getD 0) = w from rfl, jsMaxQ_eq_max]
      exact (max_eq_right (hb w rfl)).symm
  | some m =>
    cases b with
    | none =>
      rw [allTimeBestStep_none_right]
      rw [show ((none : Option ℚ).getD 0) = 0 from rfl,
        show ((some m).getD 0) = m from rfl, jsMaxQ_eq_max]
      exact (max_eq_left (ha m rfl)).symm
    | some w => rfl

theorem itemBestWeight_eq_setsWeightMax (sets : List WSet)
    (hpos : ∀ st ∈ sets, ∀ w, st.weightLb = some w → 0 ≤ w) :
    itemBestWeight sets = (setsWeightMax sets).getD 0 := by
  induction sets using List.reverseRecOn with
  | nil => rfl
  | append_singleton l st ih =>
    have hpos' : ∀ s ∈ l, ∀ w, s.weightLb = some w → 0 ≤ w :=
      fun s hs => hpos s (List.mem_append_left _ hs)
    have hil := ih hpos'
    rw [itemBestWeight, List.foldl_append, List.foldl_cons, List.foldl_nil]
    rw [show l.foldl (fun m st => jsMaxQ m (st.weightLb.getD 0)) 0
      = itemBestWeight l from rfl]
    rw [setsWeightMax_append]
    rw [getD_allTimeBestStep (setsWeightMax_nonneg hpos') (setsWeightMax_nonneg
      (fun s hs => hpos s (List.mem_append_right _ hs)))]
    rw [hil]
    congr 1
    cases hw : st.weightLb with
    | none => rw [show setsWeightMax [st] = none from by
        rw [setsWeightMax, List.filterMap, hw]; rfl]
    | some w =>
      rw [show setsWeightMax [st] = some w from by
        rw [setsWeightMax, List.filterMap, hw]; rfl]

theorem lookup_upsert_self (item : DashboardItem) (key : Str) :
    ∀ acc : List (Str × ExerciseSummary),
      (upsertSummary acc key item).lookup key =
        some (match acc.lookup key with
              | some cur => mergeSummary cur item
              | none => freshSummary key item) := by
  intro acc
  induction acc with
  | nil =>
    have hbeq : (key == key) = true := beq_self_eq_true key
    simp only [upsertSummary, List.lookup, hbeq]
  | cons e rest ih =>
    obtain ⟨k, cur⟩ := e
    rw [upsertSummary]
    by_cases hk : k = key
    · subst hk
      have hbeq : (k == k) = true := beq_self_eq_true k
      simp only [if_pos rfl, List.lookup, hbeq]
    · rw [if_neg hk]
      have hbeq : (key == k) = false := beq_eq_false_iff_ne.2 (Ne.symm hk)
      simp only [List.lookup, hbeq]
      exact ih

theorem lookup_upsert_other (item : DashboardItem) (key j : Str) (hj : j ≠ key) :
    ∀ acc : List (Str × ExerciseSummary),
      (upsertSummary acc key item).lookup j = acc.lookup j := by
  intro acc
  induction acc with
  | nil =>
    have hbeq : (j == key) = false := beq_eq_false_iff_ne.2 hj
    simp only [upsertSummary, List.lookup, hbeq]
  | cons e rest ih =>
    obtain ⟨k, cur⟩ := e
    rw [upsertSummary]
    by_cases hk : k = key
    · subst hk
      have hbeq : (j == k) = false := beq_eq_false_iff_ne.2 hj
      simp only [if_pos rfl, List.lookup, hbeq]
    · rw [if_neg hk]
      by_cases hjk : j = k
      · subst hjk
        have hbeq : (j == j) = true := beq_self_eq_true j
        simp only [List.lookup, hbeq]
      · have hbeq : (j == k) = false := beq_eq_false_iff_ne.2 hjk
        simp only [List.lookup, hbeq]
        exact ih

theorem groupSets_append_single (l : List DashboardItem) (item : DashboardItem)
    (k : Str) :
    groupSets (l ++ [item]) k =
      groupSets l k ++
        (if normalizeExerciseName item.name = k then item.sets else []) := by
  rw [groupSets, groupSets, List.filter_append]
  by_cases hp : normalizeExerciseName item.name = k
  · rw [if_pos hp]
    rw [show List.filter (fun it => decide (normalizeExerciseName it.name = k)) [item]
      = [item] from by simp [List.filter, hp]]
    rw [List.map_append, List.flatten_append]
    simp
  · rw [if_neg hp]
    rw [show List.filter (fun it => decide (normalizeExerciseName it.name = k)) [item]
      = [] from by simp [List.filter, hp]]
    simp

theorem mem_groupSets {items : List DashboardItem} {k : Str} {st : WSet}
    (h : st ∈ groupSets items k) : ∃ it ∈ items, st ∈ it.sets := by
  rw [groupSets] at h
  obtain ⟨l, hl, hst⟩ := List.mem_flatten.1 h
  obtain ⟨it, hit, hits⟩ := List.mem_map.1 hl
  exact ⟨it, (List.mem_filter.1 hit).1, by rw [hits]; exact hst⟩

theorem exerciseSummaryMap_invariant (items : List DashboardItem)
    (hpos : ∀ it ∈ items, ∀ st ∈ it.sets, ∀ w, st.weightLb = some w → 0 ≤ w) :
    (∀ k s, (exerciseSummaryMap items).lookup k = some s →
      s.bestWeight = (setsWeightMax (groupSets items k)).getD 0) ∧
    (∀ k, k ≠ [] → (exerciseSummaryMap items).lookup k = none →
      groupSets items k = []) ∧
    (exerciseSummaryMap items).lookup ([] : Str) = none := by
  induction items using List.reverseRecOn with
  | nil =>
    refine ⟨?_, ?_, rfl⟩
    · intro k s h; cases h
    · intro k _ _; rfl
  | append_singleton l item ih =>
    have hpos' : ∀ it ∈ l, ∀ st ∈ it.sets, ∀ w, st.weightLb = some w → 0 ≤ w :=
      fun it hit => hpos it (List.mem_append_left _ hit)
    have hpositem : ∀ st ∈ item.sets, ∀ w, st.weightLb = some w → 0 ≤ w :=
      hpos item (List.mem_append_right _ (List.mem_singleton_self item))
    obtain ⟨ih1, ih2, ih3⟩ := ih hpos'
    have hfold : exerciseSummaryMap (l ++ [item]) =
        exerciseSummaryStep (exerciseSummaryMap l) item := by
      rw [exerciseSummaryMap, List.foldl_append, List.foldl_cons, List.foldl_nil]
      rfl
    rw [hfold, exerciseSummaryStep]
    by_cases hkey : normalizeExerciseName item.name = []
    · rw [if_pos hkey]
      refine ⟨?_, ?_, ih3⟩
      · intro k s h
        have hk : k ≠ [] := by
          intro h0
          rw [h0, ih3] at h
          cases h
        rw [groupSets_append_single, if_neg (by rw [hkey]; exact fun h0 => hk h0.symm)]
        rw [List.append_nil]
        exact ih1 k s h
      · intro k hk h
        rw [groupSets_append_single, if_neg (by rw [hkey]; exact fun h0 => hk h0.symm)]
        rw [List.append_nil]
        exact ih2 k hk h
    · rw [if_neg hkey]
      refine ⟨?_, ?_, ?_⟩
      · intro k s h
        by_cases hkk : k = normalizeExerciseName item.name
        · subst hkk
          rw [lookup_upsert_self] at h
          rw [groupSets_append_single, if_pos rfl]
          cases hcur : (exerciseSummaryMap l).lookup (normalizeExerciseName item.name) with
          | some cur =>
            rw [hcur] at h
            injection h with h0
            rw [← h0]
            rw [show (mergeSummary cur item).bestWeight
              = jsMaxQ cur.bestWeight (itemBestWeight item.sets) from rfl]
            rw [ih1 _ cur hcur, itemBestWeight_eq_setsWeightMax item.sets hpositem]
            rw [setsWeightMax_append]
            rw [getD_allTimeBestStep
              (setsWeightMax_nonneg (fun st hst => by
                obtain ⟨it, hit, hsts⟩ := mem_groupSets hst
                exact hpos' it hit st hsts))
              (setsWeightMax_nonneg hpositem)]
          | none =>
            rw [hcur] at h
            injection h with h0
            rw [← h0]
            rw [show (freshSummary (normalizeExerciseName item.name) item).bestWeight
              = itemBestWeight item.sets from rfl]
            rw [ih2 _ hkey hcur, List.nil_append]
            exact itemBestWeight_eq_setsWeightMax item.sets hpositem
        · rw [lookup_upsert_other item _ k hkk] at h
          rw [groupSets_append_single, if_neg (fun h0 => hkk h0.symm), List.append_nil]
          exact ih1 k s h
      · intro k hk h
        by_cases hkk : k = normalizeExerciseName item.name
        · subst hkk
          rw [lookup_upsert_self] at h
          cases h
        · rw [lookup_upsert_other item _ k hkk] at h
          rw [groupSets_append_single, if_neg (fun h0 => hkk h0.symm), List.append_nil]
          exact ih2 k hk h
      · rw [lookup_upsert_other item _ [] (fun h0 => hkey h0.symm)]
        exact ih3

/-- C5 (amended): in the dashboard's per-exercise aggregation the
computed best weight is a plain number, never null: for every group it
equals the spec's "max across all sets with non-null weight" when such a
set exists (given the persisted weights are non-negative), and it is `0`
— not null — for a group with only null-weight (bodyweight) sets. -/
theorem dashboard_bestWeight_floor_zero (items : List DashboardItem)
    (hpos : ∀ it ∈ items, ∀ st ∈ it.sets, ∀ w, st.weightLb = some w → 0 ≤ w) :
    ∀ k s, (exerciseSummaryMap items).lookup k = some s →
      s.bestWeight = (setsWeightMax (groupSets items k)).getD 0 :=
  (exerciseSummaryMap_invariant items hpos).1

def c5WitnessItems : List DashboardItem :=
  [⟨"Bench".toList, 1, 5, [⟨5, some 100⟩]⟩,
   ⟨"bench ".toList, 2, 6, [⟨3, some 120⟩, ⟨2, none⟩]⟩]

/-- Witness for C5's amended theorem at a concrete two-session group. -/
theorem dashboard_bestWeight_floor_zero_witness :
    ∃ s, (exerciseSummaryMap c5WitnessItems).lookup ("bench".toList) = some s ∧
      s.bestWeight =
        (setsWeightMax (groupSets c5WitnessItems ("bench".toList))).getD 0 := by
  cases h : (exerciseSummaryMap c5WitnessItems).lookup ("bench".toList) with
  | none => exact absurd h (by decide)
  | some s =>
    exact ⟨s, rfl, dashboard_bestWeight_floor_zero c5WitnessItems (by decide) _ s h⟩

/-!
### POST /workouts payload parsing (route handler helpers)

The route's raw JSON scalars are modelled as strings or null; the
client form always submits reps/weight fields as strings, and absent or
non-string fields take the same rejection paths as null here. An
`exercises`/`sets` field that is missing or not an array is `none`.
-/

inductive RawValue where
  | vStr (s : Str)
  | vNull
deriving DecidableEq, Repr

structure RawWorkoutSet where
  reps : Option RawValue
  weightLb : Option RawValue
deriving DecidableEq, Repr

structure RawWorkoutExercise where
  name : Option RawValue
  sets : Option (List RawWorkoutSet)
deriving DecidableEq, Repr

structure RawWorkoutPayload where
  title : Option RawValue
  exercises : Option (List RawWorkoutExercise)
deriving DecidableEq, Repr

structure ParsedSet where
  reps : ℕ
  weightLb : Option Str
deriving DecidableEq, Repr

structure ParsedExercise where
  name : Str
  normalizedName : Str
  sets : List ParsedSet
deriving DecidableEq, Repr

structure ParsedWorkout where
  title : Str
  exercises : List ParsedExercise
deriving DecidableEq, Repr

def toOptionalTrimmedString : Option RawValue → Option Str
  | some (RawValue.vStr s) => if jsTrim s = [] then none else some (jsTrim s)
  | _ => none

def digitsToNat (s : Str) : ℕ :=
  s.foldl (fun n c => 10 * n + (c.toNat - 48)) 0

/-- `Number.parseInt(s, 10)` on an already-trimmed string: optional sign,
then a digit prefix; `none` models NaN (no leading digit). -/
def jsParseInt : Str → Option ℤ
  | '-' :: rest =>
      if rest.takeWhile Char.isDigit = [] then none
      else some (-(digitsToNat (rest.takeWhile Char.isDigit) : ℤ))
  | '+' :: rest =>
      if rest.takeWhile Char.isDigit = [] then none
      else some (digitsToNat (rest.takeWhile Char.isDigit))
  | s =>
      if s.takeWhile Char.isDigit = [] then none
      else some (digitsToNat (s.takeWhile Char.isDigit))

def parsePositiveInt : Option RawValue → Option ℕ
  | some (RawValue.vStr s) =>
      if jsTrim s = [] then none
      else
        match jsParseInt (jsTrim s) with
        | some n => if 0 < n then some n.toNat else none
        | none => none
  | _ => none

def allDigits (s : Str) : Bool := s.all Char.isDigit

/-- The regex `\d+` then optionally `.` then `\d*`, anchored both ends. -/
def decShapeIntFrac (s : Str) : Bool :=
  decide (s.takeWhile Char.isDigit ≠ []) &&
    (match s.dropWhile Char.isDigit with
     | [] => true
     | c :: rest => c == '.' && allDigits rest)

/-- The regex `.` then `\d+`, anchored both ends. -/
def decShapeDotFrac : Str → Bool
  | '.' :: rest => decide (rest ≠ []) && allDigits rest
  | _ => false

/-- `Number(...)` on a string already known to be of decimal shape. -/
def parseDecQ (s : Str) : ℚ :=
  (digitsToNat (s.takeWhile Char.isDigit) : ℚ) +
    match s.dropWhile Char.isDigit with
    | [] => 0
    | _ :: frac => (digitsToNat frac : ℚ) / ((10 : ℚ) ^ frac.length)

def parseOptionalDecimalString : Option RawValue → Option Str
  | none => none
  | some RawValue.vNull => none
  | some (RawValue.vStr s) =>
      if jsTrim s = [] then none
      else if (decShapeIntFrac (jsTrim s) || decShapeDotFrac (jsTrim s)) = false then none
      else if parseDecQ (if (jsTrim s).head? = some '.'
                         then '0' :: jsTrim s else jsTrim s) < 0 then none
      else some (if (jsTrim s).head? = some '.' then '0' :: jsTrim s else jsTrim s)

def parseSets (l : List RawWorkoutSet) : List ParsedSet :=
  l.filterMap (fun rs =>
    (parsePositiveInt rs.reps).map
      (fun r => ParsedSet.mk r (parseOptionalDecimalString rs.weightLb)))

def errNoExercises : Str := "Add at least one exercise.".toList

def errMissingSets (name : Str) : Str :=
  "Exercise \"".toList ++ name ++ "\" is missing sets.".toList

def errNeedsSet (name : Str) : Str :=
  "Exercise \"".toList ++ name ++ "\" needs at least one valid set with reps.".toList

def errNoNamed : Str := "Add at least one exercise with a name.".toList

def normalizeExercises : List RawWorkoutExercise → Except Str (List ParsedExercise)
  | [] => Except.ok []
  | item :: rest =>
      match toOptionalTrimmedString item.name with
      | none => normalizeExercises rest
      | some name =>
          match item.sets with
          | none => Except.error (errMissingSets name)
          | some rawSets =>
              if parseSets rawSets = [] then Except.error (errNeedsSet name)
              else
                match normalizeExercises rest with
                | Except.error e => Except.error e
                | Except.ok exs =>
                    Except.ok
                      (ParsedExercise.mk name (normalizeExerciseName name)
                        (parseSets rawSets) :: exs)

def normalizePayload (raw : RawWorkoutPayload) : Except Str ParsedWorkout :=
  match raw.exercises with
  | none => Except.error errNoExercises
  | some items =>
      match normalizeExercises items with
      | Except.error e => Except.error e
      | Except.ok exs =>
          if exs = [] then Except.error errNoNamed
          else
            Except.ok
              (ParsedWorkout.mk
                ((toOptionalTrimmedString raw.title).getD ("Untitled workout".toList))
                exs)

deriving instance DecidableEq for Except

def c7Payload : RawWorkoutPayload :=
  RawWorkoutPayload.mk (some (RawValue.vStr ("Leg day".toList)))
    (some [RawWorkoutExercise.mk (some (RawValue.vStr ("Bench".toList)))
      (some [RawWorkoutSet.mk (some (RawValue.vStr ("5".toList)))
        (some (RawValue.vStr ("abc".toList)))])])

/-- C7 counterexample: a set whose weight is the non-numeric string
"abc" is NOT rejected: `parseOptionalDecimalString` coerces the weight
to null and `normalizePayload` accepts the payload, so the request takes
the 201 path, not the 400 validation path the spec promises. -/
theorem nonNumericWeight_not_rejected :
    parseOptionalDecimalString (some (RawValue.vStr ("abc".toList))) = none ∧
    normalizePayload c7Payload =
      Except.ok (ParsedWorkout.mk ("Leg day".toList)
        [ParsedExercise.mk ("Bench".toList) ("bench".toList)
          [ParsedSet.mk 5 none]]) := by decide

def eraseSetWeight (rs : RawWorkoutSet) : RawWorkoutSet :=
  RawWorkoutSet.mk rs.reps none

def eraseExerciseWeights (re : RawWorkoutExercise) : RawWorkoutExercise :=
  RawWorkoutExercise.mk re.name (re.sets.map (fun ls => ls.map eraseSetWeight))

def eraseWeights (raw : RawWorkoutPayload) : RawWorkoutPayload :=
  RawWorkoutPayload.mk raw.title (raw.exercises.map (fun ls => ls.map eraseExerciseWeights))

def eraseParsedSetWeight (ps : ParsedSet) : ParsedSet := ParsedSet.mk ps.reps none

def eraseParsedExercise (ex : ParsedExercise) : ParsedExercise :=
  ParsedExercise.mk ex.name ex.normalizedName (ex.sets.map eraseParsedSetWeight)

def eraseParsedWeights (w : ParsedWorkout) : ParsedWorkout :=
  ParsedWorkout.mk w.title (w.exercises.map eraseParsedExercise)

theorem parseSets_erase (l : List RawWorkoutSet) :
    parseSets (l.map eraseSetWeight) = (parseSets l).map eraseParsedSetWeight := by
  rw [parseSets, parseSets, List.filterMap_map, List.map_filterMap]
  have hfn : ((fun rs => (parsePositiveInt rs.reps).map
        (fun r => ParsedSet.mk r (parseOptionalDecimalString rs.weightLb))) ∘ eraseSetWeight)
      = fun rs => ((parsePositiveInt rs.reps).map
        (fun r => ParsedSet.mk r (parseOptionalDecimalString rs.weightLb))).map
          eraseParsedSetWeight := by
    funext rs
    have key : ∀ o : Option ℕ,
        Option.map (fun r => ParsedSet.mk r none) o
          = Option.map eraseParsedSetWeight
              (Option.map (fun r => ParsedSet.mk r (parseOptionalDecimalString rs.weightLb)) o) := by
      intro o
      cases o <;> rfl
    exact key (parsePositiveInt rs.reps)
  rw [hfn]

theorem normalizeExercises_erase (l : List RawWorkoutExercise) :
    normalizeExercises (l.map eraseExerciseWeights) =
      (match normalizeExercises l with
       | Except.error e => Except.error e
       | Except.ok exs => Except.ok (exs.map eraseParsedExercise)) := by
  induction l with
  | nil => rfl
  | cons item rest ih =>
    rw [List.map_cons, normalizeExercises, normalizeExercises]
    rw [show (eraseExerciseWeights item).name = item.name from rfl]
    cases toOptionalTrimmedString item.name with
    | none => exact ih
    | some name =>
      rw [show (eraseExerciseWeights item).sets
            = item.sets.map (fun ls => ls.map eraseSetWeight) from rfl]
      cases item.sets with
      | none => rfl
      | some rawSets =>
        simp only [Option.map]
        rw [parseSets_erase]
        by_cases hp : parseSets rawSets = []
        · rw [if_pos (List.map_eq_nil_iff.2 hp), if_pos hp]
        · rw [if_neg (fun h => hp (List.map_eq_nil_iff.1 h)), if_neg hp, ih]
          cases normalizeExercises rest with
          | error e => rfl
          | ok exs => rfl

theorem normalizePayload_erase (raw : RawWorkoutPayload) :
    normalizePayload (eraseWeights raw) =
      (match normalizePayload raw with
       | Except.error e => Except.error e
       | Except.ok w => Except.ok (eraseParsedWeights w)) := by
  rw [normalizePayload, normalizePayload]
  rw [show (eraseWeights raw).exercises
        = raw.exercises.map (fun ls => ls.map eraseExerciseWeights) from rfl]
  rw [show (eraseWeights raw).title = raw.title from rfl]
  cases raw.exercises with
  | none => rfl
  | some items =>
    simp only [Option.map]
    rw [normalizeExercises_erase]
    cases normalizeExercises items with
    | error e => rfl
    | ok exs =>
      dsimp only
      by_cases hx : exs = []
      · rw [show exs.map eraseParsedExercise = [] from List.map_eq_nil_iff.2 hx,
            if_pos rfl, if_pos hx]
      · rw [if_neg (fun h => hx (List.map_eq_nil_iff.1 h)), if_neg hx]
        rfl

/-- C7 (amended): a set weight that is a non-numeric string does NOT
produce the 400 validation error: `parseOptionalDecimalString` coerces
every string matching neither decimal pattern to null, and the
accept/reject outcome of `normalizePayload` is completely independent of
the sets' `weightLb` fields (replacing every weight by null yields the
same error, or success with the same structure up to weights). Only a
missing exercises array, a named exercise with a missing sets array, a
named exercise with zero valid sets, and a payload with no named
exercise are rejected. -/
theorem nonNumericWeight_silently_coerced (raw : RawWorkoutPayload) :
    (∀ s : Str, decShapeIntFrac (jsTrim s) = false → decShapeDotFrac (jsTrim s) = false →
        parseOptionalDecimalString (some (RawValue.vStr s)) = none) ∧
    normalizePayload (eraseWeights raw) =
      (match normalizePayload raw with
       | Except.error e => Except.error e
       | Except.ok w => Except.ok (eraseParsedWeights w)) := by
  refine ⟨fun s h1 h2 => ?_, normalizePayload_erase raw⟩
  simp only [parseOptionalDecimalString]
  by_cases h0 : jsTrim s = []
  · rw [if_pos h0]
  · rw [if_neg h0, if_pos (by rw [h1, h2]; rfl)]

/-- Witness for C7's amended theorem: the non-numeric weight "12kg" is
coerced to null, and erasing all weights from the concrete payload does
not change its acceptance. -/
theorem nonNumericWeight_silently_coerced_witness :
    parseOptionalDecimalString (some (RawValue.vStr ("12kg".toList))) = none ∧
    normalizePayload (eraseWeights c7Payload) =
      (match normalizePayload c7Payload with
       | Except.error e => Except.error e
       | Except.ok w => Except.ok (eraseParsedWeights w)) :=
  ⟨(nonNumericWeight_silently_coerced c7Payload).1 ("12kg".toList) (by decide) (by decide),
   (nonNumericWeight_silently_coerced c7Payload).2⟩

/-!
### persistWorkout: compensating delete on failure

Database effects are modelled by an oracle assigning every distinct
call an outcome (`Except.ok` with a row id, or an error). Each function
returns its result together with the ordered trace of issued calls. The
compensating delete is issued but its outcome is discarded, mirroring
`.catch(() => undefined)` in the source.
-/

inductive DbErr where
  | unknownTotalWeightArg
  | unknownWeightLbArg
  | p2002
  | p2021
  | p2022
  | initErr
  | generic (code : ℕ)
deriving DecidableEq, Repr

inductive DbCall where
  | createLogWithTotal
  | createLogNoTotal
  | upsertExercise (i : ℕ)
  | touchLastPerformed (i : ℕ)
  | createWorkoutExercise (i : ℕ)
  | createSetsMany (i : ℕ)
  | detectWeightColumn (i : ℕ)
  | insertSetFallback (i j : ℕ)
  | deleteLog
deriving DecidableEq, Repr

abbrev DbOracle := DbCall → Except DbErr ℕ

def insertSetsFallbackLoop (oracle : DbOracle) (i : ℕ) :
    ℕ → List ParsedSet → Except DbErr Unit × List DbCall
  | _, [] => (Except.ok (), [])
  | j, _ :: rest =>
      match oracle (DbCall.insertSetFallback i j) with
      | Except.error e => (Except.error e, [DbCall.insertSetFallback i j])
      | Except.ok _ =>
          ((insertSetsFallbackLoop oracle i (j + 1) rest).1,
           DbCall.insertSetFallback i j :: (insertSetsFallbackLoop oracle i (j + 1) rest).2)

def insertWorkoutSetsFallback (oracle : DbOracle) (i : ℕ) (sets : List ParsedSet) :
    Except DbErr Unit × List DbCall :=
  match oracle (DbCall.detectWeightColumn i) with
  | Except.error e => (Except.error e, [DbCall.detectWeightColumn i])
  | Except.ok _ =>
      ((insertSetsFallbackLoop oracle i 1 sets).1,
       DbCall.detectWeightColumn i :: (insertSetsFallbackLoop oracle i 1 sets).2)

def persistOneExercise (oracle : DbOracle) (i : ℕ) (ex : ParsedExercise) :
    Except DbErr Unit × List DbCall :=
  match oracle (DbCall.upsertExercise i) with
  | Except.error e => (Except.error e, [DbCall.upsertExercise i])
  | Except.ok _ =>
    match oracle (DbCall.touchLastPerformed i) with
    | Except.error e =>
        (Except.error e, [DbCall.upsertExercise i, DbCall.touchLastPerformed i])
    | Except.ok _ =>
      match oracle (DbCall.createWorkoutExercise i) with
      | Except.error e =>
          (Except.error e,
           [DbCall.upsertExercise i, DbCall.touchLastPerformed i,
            DbCall.createWorkoutExercise i])
      | Except.ok _ =>
        match oracle (DbCall.createSetsMany i) with
        | Except.ok _ =>
            (Except.ok (),
             [DbCall.upsertExercise i, DbCall.touchLastPerformed i,
              DbCall.createWorkoutExercise i, DbCall.createSetsMany i])
        | Except.error e =>
            if e = DbErr.unknownWeightLbArg then
              ((insertWorkoutSetsFallback oracle i ex.sets).1,
               [DbCall.upsertExercise i, DbCall.touchLastPerformed i,
                DbCall.createWorkoutExercise i, DbCall.createSetsMany i]
                 ++ (insertWorkoutSetsFallback oracle i ex.sets).2)
            else
              (Except.error e,
               [DbCall.upsertExercise i, DbCall.touchLastPerformed i,
                DbCall.createWorkoutExercise i, DbCall.createSetsMany i])

def persistExercises (oracle : DbOracle) :
    ℕ → List ParsedExercise → Except DbErr Unit × List DbCall
  | _, [] => (Except.ok (), [])
  | i, ex :: rest =>
      match (persistOneExercise oracle i ex).1 with
      | Except.error e => (Except.error e, (persistOneExercise oracle i ex).2)
      | Except.ok _ =>
          ((persistExercises oracle (i + 1) rest).1,
           (persistOneExercise oracle i ex).2 ++ (persistExercises oracle (i + 1) rest).2)

def createLogPhase (oracle : DbOracle) : Except DbErr ℕ × List DbCall :=
  match oracle DbCall.createLogWithTotal with
  | Except.ok logId => (Except.ok logId, [DbCall.createLogWithTotal])
  | Except.error e =>
      if e = DbErr.unknownTotalWeightArg then
        match oracle DbCall.createLogNoTotal with
        | Except.ok logId =>
            (Except.ok logId, [DbCall.createLogWithTotal, DbCall.createLogNoTotal])
        | Except.error e2 =>
            (Except.error e2, [DbCall.createLogWithTotal, DbCall.createLogNoTotal])
      else (Except.error e, [DbCall.createLogWithTotal])

def persistWorkout (oracle : DbOracle) (payload : ParsedWorkout) :
    Except DbErr ℕ × List DbCall :=
  match (createLogPhase oracle).1 with
  | Except.error e => (Except.error e, (createLogPhase oracle).2)
  | Except.ok logId =>
      match (persistExercises oracle 0 payload.exercises).1 with
      | Except.ok _ =>
          (Except.ok logId,
           (createLogPhase oracle).2 ++ (persistExercises oracle 0 payload.exercises).2)
      | Except.error e =>
          (Except.error e,
           (createLogPhase oracle).2 ++ (persistExercises oracle 0 payload.exercises).2
             ++ [DbCall.deleteLog])

def statusOfDbErr : DbErr → ℕ
  | DbErr.p2002 => 409
  | DbErr.p2021 => 503
  | DbErr.p2022 => 503
  | DbErr.initErr => 503
  | _ => 500

def postWorkout (oracle : DbOracle) (raw : RawWorkoutPayload) : ℕ × List DbCall :=
  match normalizePayload raw with
  | Except.error _ => (400, [])
  | Except.ok w =>
      match persistWorkout oracle w with
      | (Except.ok _, tr) => (201, tr)
      | (Except.error e, tr) => (statusOfDbErr e, tr)

theorem insertSetsFallbackLoop_noDelete (oracle : DbOracle) (i : ℕ) :
    ∀ (j : ℕ) (sets : List ParsedSet),
      DbCall.deleteLog ∉ (insertSetsFallbackLoop oracle i j sets).2 := by
  intro j sets
  induction sets generalizing j with
  | nil => intro h; exact absurd h (List.not_mem_nil _)
  | cons st rest ih =>
    rw [insertSetsFallbackLoop]
    split
    · intro hmem
      rcases List.mem_cons.1 hmem with hc | hc
      · exact DbCall.noConfusion hc
      · exact absurd hc (List.not_mem_nil _)
    · intro hmem
      rcases List.mem_cons.1 hmem with hc | hc
      · exact DbCall.noConfusion hc
      · exact ih (j + 1) hc

theorem insertWorkoutSetsFallback_noDelete (oracle : DbOracle) (i : ℕ)
    (sets : List ParsedSet) :
    DbCall.deleteLog ∉ (insertWorkoutSetsFallback oracle i sets).2 := by
  rw [insertWorkoutSetsFallback]
  split
  · intro hmem
    rcases List.mem_cons.1 hmem with hc | hc
    · exact DbCall.noConfusion hc
    · exact absurd hc (List.not_mem_nil _)
  · intro hmem
    rcases List.mem_cons.1 hmem with hc | hc
    · exact DbCall.noConfusion hc
    · exact insertSetsFallbackLoop_noDelete oracle i 1 sets hc

theorem persistOneExercise_noDelete (oracle : DbOracle) (i : ℕ) (ex : ParsedExercise) :
    DbCall.deleteLog ∉ (persistOneExercise oracle i ex).2 := by
  rw [persistOneExercise]
  split
  · simp
  · split
    · simp
    · split
      · simp
      · split
        · simp
        · split
          · intro hmem
            rcases List.mem_append.1 hmem with hc | hc
            · simp at hc
            · exact insertWorkoutSetsFallback_noDelete oracle i ex.sets hc
          · simp

theorem persistExercises_noDelete (oracle : DbOracle) :
    ∀ (i : ℕ) (l : List ParsedExercise),
      DbCall.deleteLog ∉ (persistExercises oracle i l).2 := by
  intro i l
  induction l generalizing i with
  | nil => intro h; exact absurd h (List.not_mem_nil _)
  | cons ex rest ih =>
    rw [persistExercises]
    split
    · exact persistOneExercise_noDelete oracle i ex
    · intro hmem
      rcases List.mem_append.1 hmem with hc | hc
      · exact persistOneExercise_noDelete oracle i ex hc
      · exact ih (i + 1) hc

theorem createLogPhase_noDelete (oracle : DbOracle) :
    DbCall.deleteLog ∉ (createLogPhase oracle).2 := by
  rw [createLogPhase]
  split
  · simp
  · split
    · split <;> simp
    · simp

theorem insertSetsFallbackLoop_err (oracle : DbOracle) (i : ℕ) :
    ∀ (j : ℕ) (sets : List ParsedSet) (e : DbErr) (tr : List DbCall),
      insertSetsFallbackLoop oracle i j sets = (Except.error e, tr) →
      ∃ c ∈ tr, oracle c = Except.error e := by
  intro j sets
  induction sets generalizing j with
  | nil =>
    intro e tr h
    exact absurd (congrArg Prod.fst h) (by intro hc; exact Except.noConfusion hc)
  | cons st rest ih =>
    intro e tr h
    rw [insertSetsFallbackLoop] at h
    split at h
    · rename_i e1 heq
      have he := congrArg Prod.fst h
      have ht := congrArg Prod.snd h
      dsimp at he ht
      cases he
      exact ⟨DbCall.insertSetFallback i j, by rw [← ht]; exact List.mem_cons_self _ _, heq⟩
    · have he := congrArg Prod.fst h
      have ht := congrArg Prod.snd h
      dsimp at he ht
      have h2 : insertSetsFallbackLoop oracle i (j + 1) rest
          = (Except.error e, (insertSetsFallbackLoop oracle i (j + 1) rest).2) := by
        rw [← he]
      obtain ⟨c, hc, hoc⟩ := ih (j + 1) e _ h2
      exact ⟨c, by rw [← ht]; exact List.mem_cons_of_mem _ hc, hoc⟩

theorem insertWorkoutSetsFallback_err (oracle : DbOracle) (i : ℕ)
    (sets : List ParsedSet) (e : DbErr) (tr : List DbCall)
    (h : insertWorkoutSetsFallback oracle i sets = (Except.error e, tr)) :
    ∃ c ∈ tr, oracle c = Except.error e := by
  rw [insertWorkoutSetsFallback] at h
  split at h
  · rename_i e1 heq
    have he := congrArg Prod.fst h
    have ht := congrArg Prod.snd h
    dsimp at he ht
    cases he
    exact ⟨DbCall.detectWeightColumn i, by rw [← ht]; exact List.mem_cons_self _ _, heq⟩
  · have he := congrArg Prod.fst h
    have ht := congrArg Prod.snd h
    dsimp at he ht
    have h2 : insertSetsFallbackLoop oracle i 1 sets
        = (Except.error e, (insertSetsFallbackLoop oracle i 1 sets).2) := by
      rw [← he]
    obtain ⟨c, hc, hoc⟩ := insertSetsFallbackLoop_err oracle i 1 sets e _ h2
    exact ⟨c, by rw [← ht]; exact List.mem_cons_of_mem _ hc, hoc⟩

theorem persistOneExercise_err (oracle : DbOracle) (i : ℕ) (ex : ParsedExercise)
    (e : DbErr) (tr : List DbCall)
    (h : persistOneExercise oracle i ex = (Except.error e, tr)) :
    ∃ c ∈ tr, oracle c = Except.error e := by
  rw [persistOneExercise] at h
  split at h
  · rename_i e1 heq
    have he := congrArg Prod.fst h
    have ht := congrArg Prod.snd h
    dsimp at he ht
    cases he
    exact ⟨DbCall.upsertExercise i, by rw [← ht]; exact List.mem_cons_self _ _, heq⟩
  · split at h
    · rename_i e1 heq
      have he := congrArg Prod.fst h
      have ht := congrArg Prod.snd h
      dsimp at he ht
      cases he
      exact ⟨DbCall.touchLastPerformed i, by rw [← ht]; simp, heq⟩
    · split at h
      · rename_i e1 heq
        have he := congrArg Prod.fst h
        have ht := congrArg Prod.snd h
        dsimp at he ht
        cases he
        exact ⟨DbCall.createWorkoutExercise i, by rw [← ht]; simp, heq⟩
      · split at h
        · exact absurd (congrArg Prod.fst h)
            (by intro hc; exact Except.noConfusion hc)
        · rename_i e1 heq
          split at h
          · have he := congrArg Prod.fst h
            have ht := congrArg Prod.snd h
            dsimp at he ht
            have h2 : insertWorkoutSetsFallback oracle i ex.sets
                = (Except.error e, (insertWorkoutSetsFallback oracle i ex.sets).2) := by
              rw [← he]
            obtain ⟨c, hc, hoc⟩ := insertWorkoutSetsFallback_err oracle i ex.sets e _ h2
            refine ⟨c, ?_, hoc⟩
            rw [← ht]
            exact List.mem_cons_of_mem _ (List.mem_cons_of_mem _
              (List.mem_cons_of_mem _ (List.mem_cons_of_mem _ hc)))
          · have he := congrArg Prod.fst h
            have ht := congrArg Prod.snd h
            dsimp at he ht
            cases he
            exact ⟨DbCall.createSetsMany i, by rw [← ht]; simp, heq⟩

theorem persistExercises_err (oracle : DbOracle) :
    ∀ (i : ℕ) (l : List ParsedExercise) (e : DbErr) (tr : List DbCall),
      persistExercises oracle i l = (Except.error e, tr) →
      ∃ c ∈ tr, oracle c = Except.error e := by
  intro i l
  induction l generalizing i with
  | nil =>
    intro e tr h
    exact absurd (congrArg Prod.fst h) (by intro hc; exact Except.noConfusion hc)
  | cons ex rest ih =>
    intro e tr h
    rw [persistExercises] at h
    split at h
    · rename_i e1 heq
      have he := congrArg Prod.fst h
      have ht := congrArg Prod.snd h
      dsimp at he ht
      cases he
      have h2 : persistOneExercise oracle i ex
          = (Except.error e, (persistOneExercise oracle i ex).2) := by
        rw [← heq]
      obtain ⟨c, hc, hoc⟩ := persistOneExercise_err oracle i ex e _ h2
      exact ⟨c, by rw [← ht]; exact hc, hoc⟩
    · have he := congrArg Prod.fst h
      have ht := congrArg Prod.snd h
      dsimp at he ht
      have h2 : persistExercises oracle (i + 1) rest
          = (Except.error e, (persistExercises oracle (i + 1) rest).2) := by
        rw [← he]
      obtain ⟨c, hc, hoc⟩ := ih (i + 1) e _ h2
      exact ⟨c, by rw [← ht]; exact List.mem_append_right _ hc, hoc⟩

theorem createLogPhase_err (oracle : DbOracle) (e : DbErr) (tr : List DbCall)
    (h : createLogPhase oracle = (Except.error e, tr)) :
    ∃ c ∈ tr, oracle c = Except.error e := by
  rw [createLogPhase] at h
  split at h
  · exact absurd (congrArg Prod.fst h) (by intro hc; exact Except.noConfusion hc)
  · rename_i e1 heq
    split at h
    · split at h
      · exact absurd (congrArg Prod.fst h) (by intro hc; exact Except.noConfusion hc)
      · rename_i e2 heq2
        have he := congrArg Prod.fst h
        have ht := congrArg Prod.snd h
        dsimp at he ht
        cases he
        exact ⟨DbCall.createLogNoTotal, by rw [← ht]; simp, heq2⟩
    · have he := congrArg Prod.fst h
      have ht := congrArg Prod.snd h
      dsimp at he ht
      cases he
      exact ⟨DbCall.createLogWithTotal, by rw [← ht]; simp, heq⟩

theorem insertSetsFallbackLoop_agree (o1 o2 : DbOracle)
    (hag : ∀ c, c ≠ DbCall.deleteLog → o1 c = o2 c) (i : ℕ) :
    ∀ (j : ℕ) (sets : List ParsedSet),
      insertSetsFallbackLoop o1 i j sets = insertSetsFallbackLoop o2 i j sets := by
  intro j sets
  induction sets generalizing j with
  | nil => rfl
  | cons st rest ih =>
    rw [insertSetsFallbackLoop, insertSetsFallbackLoop,
        hag (DbCall.insertSetFallback i j) (fun hc => DbCall.noConfusion hc),
        ih (j + 1)]

theorem insertWorkoutSetsFallback_agree (o1 o2 : DbOracle)
    (hag : ∀ c, c ≠ DbCall.deleteLog → o1 c = o2 c) (i : ℕ) (sets : List ParsedSet) :
    insertWorkoutSetsFallback o1 i sets = insertWorkoutSetsFallback o2 i sets := by
  rw [insertWorkoutSetsFallback, insertWorkoutSetsFallback,
      hag (DbCall.detectWeightColumn i) (fun hc => DbCall.noConfusion hc),
      insertSetsFallbackLoop_agree o1 o2 hag i 1 sets]

theorem persistOneExercise_agree (o1 o2 : DbOracle)
    (hag : ∀ c, c ≠ DbCall.deleteLog → o1 c = o2 c) (i : ℕ) (ex : ParsedExercise) :
    persistOneExercise o1 i ex = persistOneExercise o2 i ex := by
  rw [persistOneExercise, persistOneExercise,
      hag (DbCall.upsertExercise i) (fun hc => DbCall.noConfusion hc),
      hag (DbCall.touchLastPerformed i) (fun hc => DbCall.noConfusion hc),
      hag (DbCall.createWorkoutExercise i) (fun hc => DbCall.noConfusion hc),
      hag (DbCall.createSetsMany i) (fun hc => DbCall.noConfusion hc),
      insertWorkoutSetsFallback_agree o1 o2 hag i ex.sets]

theorem persistExercises_agree (o1 o2 : DbOracle)
    (hag : ∀ c, c ≠ DbCall.deleteLog → o1 c = o2 c) :
    ∀ (i : ℕ) (l : List ParsedExercise),
      persistExercises o1 i l = persistExercises o2 i l := by
  intro i l
  induction l generalizing i with
  | nil => rfl
  | cons ex rest ih =>
    rw [persistExercises, persistExercises,
        persistOneExercise_agree o1 o2 hag i ex, ih (i + 1)]

theorem createLogPhase_agree (o1 o2 : DbOracle)
    (hag : ∀ c, c ≠ DbCall.deleteLog → o1 c = o2 c) :
    createLogPhase o1 = createLogPhase o2 := by
  rw [createLogPhase, createLogPhase,
      hag DbCall.createLogWithTotal (fun hc => DbCall.noConfusion hc),
      hag DbCall.createLogNoTotal (fun hc => DbCall.noConfusion hc)]

theorem normalizeExercises_err_of_empty_sets :
    ∀ (items : List RawWorkoutExercise) (item : RawWorkoutExercise),
      item ∈ items → (toOptionalTrimmedString item.name).isSome →
      (∀ rawSets, item.sets = some rawSets → parseSets rawSets = []) →
      ∃ e, normalizeExercises items = Except.error e := by
  intro items
  induction items with
  | nil => intro item h; exact absurd h (List.not_mem_nil _)
  | cons hd rest ih =>
    intro item hmem hname hsets
    rw [normalizeExercises]
    rcases List.mem_cons.1 hmem with heq | hmem2
    · rw [heq] at hname hsets
      cases hn : toOptionalTrimmedString hd.name with
      | none => rw [hn] at hname; simp at hname
      | some name =>
        cases hs : hd.sets with
        | none => exact ⟨errMissingSets name, rfl⟩
        | some rawSets =>
          refine ⟨errNeedsSet name, ?_⟩
          show (if parseSets rawSets = [] then Except.error (errNeedsSet name) else _)
            = Except.error (errNeedsSet name)
          rw [if_pos (hsets rawSets hs)]
    · cases hn : toOptionalTrimmedString hd.name with
      | none => exact ih item hmem2 hname hsets
      | some name =>
        cases hs : hd.sets with
        | none => exact ⟨errMissingSets name, rfl⟩
        | some rawSets =>
          by_cases hp : parseSets rawSets = []
          · refine ⟨errNeedsSet name, ?_⟩
            show (if parseSets rawSets = [] then Except.error (errNeedsSet name) else _)
              = Except.error (errNeedsSet name)
            rw [if_pos hp]
          · obtain ⟨e, he⟩ := ih item hmem2 hname hsets
            refine ⟨e, ?_⟩
            show (if parseSets rawSets = [] then Except.error (errNeedsSet name) else _)
              = Except.error e
            rw [if_neg hp, he]

/-- C2: no partially created session is observable through POST /workouts.
(i) A payload containing a named exercise with zero valid sets is answered
400 with an empty persistence trace: no create call is issued. (ii) Whenever
`persistWorkout` surfaces an error, the surfaced error is the outcome of one
of the issued non-delete calls (never of the compensating delete), the
compensating delete is the last call issued whenever it appears, and it is
issued exactly when the parent workout-log row had been created. (iii) The
whole result is independent of the delete call's outcome: oracles that agree
on every call but the delete produce identical results and traces, so a
failing delete cannot mask the original error. -/
theorem persistWorkout_atomic :
    (∀ (oracle : DbOracle) (raw : RawWorkoutPayload) (items : List RawWorkoutExercise)
        (item : RawWorkoutExercise),
        raw.exercises = some items → item ∈ items →
        (toOptionalTrimmedString item.name).isSome →
        (∀ rawSets, item.sets = some rawSets → parseSets rawSets = []) →
        postWorkout oracle raw = (400, [])) ∧
    (∀ (oracle : DbOracle) (w : ParsedWorkout) (e : DbErr) (tr : List DbCall),
        persistWorkout oracle w = (Except.error e, tr) →
        (∃ c ∈ tr, c ≠ DbCall.deleteLog ∧ oracle c = Except.error e) ∧
        (DbCall.deleteLog ∈ tr → tr.getLast? = some DbCall.deleteLog) ∧
        (DbCall.deleteLog ∈ tr ↔
          ∃ logId tr0, createLogPhase oracle = (Except.ok logId, tr0))) ∧
    (∀ (o1 o2 : DbOracle) (w : ParsedWorkout),
        (∀ c, c ≠ DbCall.deleteLog → o1 c = o2 c) →
        persistWorkout o1 w = persistWorkout o2 w) := by
  refine ⟨?_, ?_, ?_⟩
  · intro oracle raw items item hre hmem hname hsets
    obtain ⟨e, he⟩ := normalizeExercises_err_of_empty_sets items item hmem hname hsets
    have hnp : normalizePayload raw = Except.error e := by
      rw [normalizePayload, hre]
      show (match normalizeExercises items with
            | Except.error e => Except.error e
            | Except.ok exs => _) = Except.error e
      rw [he]
    rw [postWorkout, hnp]
  · intro oracle w e tr h
    rw [persistWorkout] at h
    split at h
    · rename_i e0 heq
      have he := congrArg Prod.fst h
      have ht := congrArg Prod.snd h
      dsimp at he ht
      cases he
      have h2 : createLogPhase oracle = (Except.error e, (createLogPhase oracle).2) := by
        rw [← heq]
      obtain ⟨c, hc, hoc⟩ := createLogPhase_err oracle e _ h2
      have hnd : DbCall.deleteLog ∉ tr := by
        rw [← ht]; exact createLogPhase_noDelete oracle
      have hctr : c ∈ tr := by rw [← ht]; exact hc
      refine ⟨⟨c, hctr, fun hcd => hnd (hcd ▸ hctr), hoc⟩,
              fun hd => absurd hd hnd, ?_⟩
      constructor
      · intro hd; exact absurd hd hnd
      · rintro ⟨logId, tr0, hcl⟩
        rw [hcl] at heq
        exact Except.noConfusion heq
    · rename_i logId heqLog
      split at h
      · exact absurd (congrArg Prod.fst h) (by intro hc; exact Except.noConfusion hc)
      · rename_i e1 heqEx
        have he := congrArg Prod.fst h
        have ht := congrArg Prod.snd h
        dsimp at he ht
        cases he
        have h2 : persistExercises oracle 0 w.exercises
            = (Except.error e, (persistExercises oracle 0 w.exercises).2) := by
          rw [← heqEx]
        obtain ⟨c, hc, hoc⟩ := persistExercises_err oracle 0 w.exercises e _ h2
        have hcne : c ≠ DbCall.deleteLog :=
          fun hcd => persistExercises_noDelete oracle 0 w.exercises (hcd ▸ hc)
        refine ⟨⟨c, ?_, hcne, hoc⟩, ?_, ?_⟩
        · rw [← ht]
          exact List.mem_append_left _ (List.mem_append_right _ hc)
        · intro _
          rw [← ht]
          exact List.getLast?_concat _
        · constructor
          · intro _
            refine ⟨logId, (createLogPhase oracle).2, ?_⟩
            rw [← heqLog]
          · intro _
            rw [← ht]
            exact List.mem_append_right _ (List.mem_cons_self _ _)
  · intro o1 o2 w hag
    rw [persistWorkout, persistWorkout, createLogPhase_agree o1 o2 hag,
        persistExercises_agree o1 o2 hag 0 w.exercises]

def c2Oracle : DbOracle := fun c =>
  match c with
  | DbCall.createSetsMany 0 => Except.error DbErr.p2002
  | DbCall.deleteLog => Except.error (DbErr.generic 7)
  | _ => Except.ok 1

def c2Oracle2 : DbOracle := fun c =>
  match c with
  | DbCall.createSetsMany 0 => Except.error DbErr.p2002
  | DbCall.deleteLog => Except.ok 0
  | _ => Except.ok 1

def c2Workout : ParsedWorkout :=
  ParsedWorkout.mk ("Untitled workout".toList)
    [ParsedExercise.mk ("Bench".toList) ("bench".toList) [ParsedSet.mk 5 none]]

def c2BadExercise : RawWorkoutExercise :=
  RawWorkoutExercise.mk (some (RawValue.vStr ("Bench".toList)))
    (some [RawWorkoutSet.mk (some (RawValue.vStr ("abc".toList))) none])

def c2BadRaw : RawWorkoutPayload := RawWorkoutPayload.mk none (some [c2BadExercise])

def c2Trace : List DbCall := (persistWorkout c2Oracle c2Workout).2

/-- Witness for C2 at a concrete oracle whose per-set insert fails with a
duplicate-key error and whose compensating delete itself fails. -/
theorem persistWorkout_atomic_witness :
    postWorkout c2Oracle c2BadRaw = (400, []) ∧
    ((∃ c ∈ c2Trace, c ≠ DbCall.deleteLog ∧ c2Oracle c = Except.error DbErr.p2002) ∧
     (DbCall.deleteLog ∈ c2Trace → c2Trace.getLast? = some DbCall.deleteLog) ∧
     (DbCall.deleteLog ∈ c2Trace ↔
       ∃ logId tr0, createLogPhase c2Oracle = (Except.ok logId, tr0))) ∧
    persistWorkout c2Oracle c2Workout = persistWorkout c2Oracle2 c2Workout :=
  ⟨persistWorkout_atomic.1 c2Oracle c2BadRaw [c2BadExercise] c2BadExercise rfl
      (by decide) (by decide)
      (fun rs h => by
        have h2 : some [RawWorkoutSet.mk (some (RawValue.vStr ("abc".toList))) none]
            = some rs := h
        injection h2 with h3
        rw [← h3]
        decide),
   persistWorkout_atomic.2.1 c2Oracle c2Workout DbErr.p2002 c2Trace (by decide),
   persistWorkout_atomic.2.2 c2Oracle c2Oracle2 c2Workout (by
      intro c hc
      cases c <;> first
        | rfl
        | exact absurd rfl hc
        | (rename_i i; cases i <;> rfl))⟩

/-!
### Stale-lookup rejection in the workout logger

Per-slot asynchronous lookups: `issue` records the latest lookup key for
a slot in the ref before the fetch is fired; `respond` is a response
arriving for the key it was issued with, applied only if that key still
equals the slot's latest (the `latest...LookupRef.current[exerciseId]
!== lookupKey` guard); `clear` is the empty-input path that clears both
the ref entry and the visible state.
-/

structure LookupState where
  latest : ℕ → Option Str
  visible : ℕ → Option ℕ

inductive LookupEvent where
  | issue (slot : ℕ) (key : Str)
  | respond (slot : ℕ) (key : Str) (v : ℕ)
  | clear (slot : ℕ)

def setSlot {α : Type} (f : ℕ → Option α) (i : ℕ) (v : Option α) : ℕ → Option α :=
  fun j => if j = i then v else f j

def lookupStep (s : LookupState) : LookupEvent → LookupState
  | LookupEvent.issue slot key =>
      LookupState.mk (setSlot s.latest slot (some key)) s.visible
  | LookupEvent.respond slot key v =>
      if s.latest slot = some key
      then LookupState.mk s.latest (setSlot s.visible slot (some v))
      else s
  | LookupEvent.clear slot =>
      LookupState.mk (setSlot s.latest slot none) (setSlot s.visible slot none)

def runLookups (s : LookupState) (evs : List LookupEvent) : LookupState :=
  evs.foldl lookupStep s

theorem respond_stale (s : LookupState) (slot : ℕ) (key : Str) (v : ℕ)
    (h : s.latest slot ≠ some key) :
    lookupStep s (LookupEvent.respond slot key v) = s := by
  show (if s.latest slot = some key
        then LookupState.mk s.latest (setSlot s.visible slot (some v)) else s) = s
  rw [if_neg h]

theorem respond_fresh (s : LookupState) (slot : ℕ) (key : Str) (v : ℕ)
    (h : s.latest slot = some key) :
    (lookupStep s (LookupEvent.respond slot key v)).visible slot = some v ∧
    (lookupStep s (LookupEvent.respond slot key v)).latest = s.latest := by
  constructor
  · show (if s.latest slot = some key
          then LookupState.mk s.latest (setSlot s.visible slot (some v)) else s).visible slot
        = some v
    rw [if_pos h]
    simp [setSlot]
  · show (if s.latest slot = some key
          then LookupState.mk s.latest (setSlot s.visible slot (some v)) else s).latest
        = s.latest
    rw [if_pos h]

/-- C3: the per-slot latest-lookup-key guard makes the last-issued
request win regardless of response arrival order: a response whose key
no longer equals the slot's latest key leaves the state completely
unchanged; a response for the latest key sets the slot's visible value
and never touches the recorded keys; any sequence of stale responses is
a no-op; and with an older key k1 and the latest key k2 both pending,
both arrival orders leave the slot showing k2's value. -/
theorem lookup_last_issued_wins :
    (∀ (s : LookupState) (slot : ℕ) (key : Str) (v : ℕ),
        s.latest slot ≠ some key →
        lookupStep s (LookupEvent.respond slot key v) = s) ∧
    (∀ (s : LookupState) (slot : ℕ) (key : Str) (v : ℕ),
        s.latest slot = some key →
        (lookupStep s (LookupEvent.respond slot key v)).visible slot = some v ∧
        (lookupStep s (LookupEvent.respond slot key v)).latest = s.latest) ∧
    (∀ (s : LookupState) (evs : List LookupEvent),
        (∀ e ∈ evs, ∃ sl k v, e = LookupEvent.respond sl k v ∧ s.latest sl ≠ some k) →
        runLookups s evs = s) ∧
    (∀ (s : LookupState) (slot : ℕ) (k1 k2 : Str) (v1 v2 : ℕ),
        k1 ≠ k2 → s.latest slot = some k2 →
        (runLookups s [LookupEvent.respond slot k1 v1,
                       LookupEvent.respond slot k2 v2]).visible slot = some v2 ∧
        (runLookups s [LookupEvent.respond slot k2 v2,
                       LookupEvent.respond slot k1 v1]).visible slot = some v2) := by
  refine ⟨respond_stale, respond_fresh, ?_, ?_⟩
  · intro s evs
    induction evs with
    | nil => intro _; rfl
    | cons e rest ih =>
      intro h
      obtain ⟨sl, k, v, he, hst⟩ := h e (List.mem_cons_self _ _)
      subst he
      show runLookups (lookupStep s (LookupEvent.respond sl k v)) rest = s
      rw [respond_stale s sl k v hst]
      exact ih (fun e2 he2 => h e2 (List.mem_cons_of_mem _ he2))
  · intro s slot k1 k2 v1 v2 hne hk2
    have h1 : s.latest slot ≠ some k1 := by
      rw [hk2]
      intro hc
      exact hne (Option.some.inj hc).symm
    constructor
    · show (lookupStep (lookupStep s (LookupEvent.respond slot k1 v1))
              (LookupEvent.respond slot k2 v2)).visible slot = some v2
      rw [respond_stale s slot k1 v1 h1]
      exact (respond_fresh s slot k2 v2 hk2).1
    · show (lookupStep (lookupStep s (LookupEvent.respond slot k2 v2))
              (LookupEvent.respond slot k1 v1)).visible slot = some v2
      have h1b : (lookupStep s (LookupEvent.respond slot k2 v2)).latest slot ≠ some k1 := by
        rw [(respond_fresh s slot k2 v2 hk2).2]
        exact h1
      rw [respond_stale _ slot k1 v1 h1b]
      exact (respond_fresh s slot k2 v2 hk2).1

def c3Init : LookupState := LookupState.mk (fun _ => none) (fun _ => none)

def c3Issued : LookupState :=
  lookupStep (lookupStep c3Init (LookupEvent.issue 0 ("b".toList)))
    (LookupEvent.issue 0 ("be".toList))

/-- Witness for C3: lookups issued for "b" then "be"; whichever order the
two responses arrive in, the slot shows the value fetched for "be". -/
theorem lookup_last_issued_wins_witness :
    ("b".toList : Str) ≠ "be".toList ∧
    c3Issued.latest 0 = some ("be".toList) ∧
    (runLookups c3Issued [LookupEvent.respond 0 ("b".toList) 1,
                          LookupEvent.respond 0 ("be".toList) 2]).visible 0 = some 2 ∧
    (runLookups c3Issued [LookupEvent.respond 0 ("be".toList) 2,
                          LookupEvent.respond 0 ("b".toList) 1]).visible 0 = some 2 :=
  ⟨by decide, by decide,
   (lookup_last_issued_wins.2.2.2 c3Issued 0 ("b".toList) ("be".toList) 1 2
      (by decide) (by decide)).1,
   (lookup_last_issued_wins.2.2.2 c3Issued 0 ("b".toList) ("be".toList) 1 2
      (by decide) (by decide)).2⟩

end LogIt
